import Mathlib

/-!
Shallow embedding of the comment-threading code of this blog repository
(component `Comments` in the source; functions `organizeComments`,
`fetchComments`, `handleSubmit`, `handleReplySubmit`).

Modelling conventions:
* A comment record keeps the fields the threading code reads: `id`,
  `parent_id`, `content`, `created_at`, `is_deleted`.  Timestamps are the
  millisecond values the source obtains via `new Date(s).getTime()`, so we
  model `created_at` directly as a `Nat`.
* The JavaScript `Map` of nodes is an association list with
  insert-or-replace semantics (`mapSet`) and key lookup (`mapGet`).
* The source mutates node objects that are aliased between the map, the
  root array and `replies` arrays.  Every access to a node goes through the
  map by id, so the heap of nodes is faithfully represented by the map
  itself; `replies` and the root array store ids, and the returned forest
  is materialised from the final map.  Materialisation uses a fuel bound
  and an availability list so that it is total; on the acyclic inputs the
  claims are about it agrees with the object graph the source returns.
* JavaScript truthiness of `parent_id` (`undefined`, `null` and `""` are
  falsy) is modelled by `isTruthy` on `Option String`.
* The single partial operation of the source, the non-null assertion
  `commentMap.get(comment.id)!`, is modelled by returning `Option`:
  `pass2` fails exactly where the assertion would.
-/

namespace Blog

/-- A flat comment record, with the fields `organizeComments` reads
(source interface `Comment`). -/
structure Comment where
  id : String
  parent_id : Option String := none
  content : String := ""
  created_at : Nat := 0
  is_deleted : Bool := false
deriving DecidableEq, Repr

/-- A node of the in-memory structure: the record together with the
`depth` field and the `replies` array (stored as ids, see the module
comment).  Corresponds to `{ ...comment, replies: [], depth: 0 }`. -/
structure CNode where
  comment : Comment
  depth : Nat
  replies : List String
deriving DecidableEq, Repr

/-- The `commentMap` of the source: an association list keyed by id. -/
abbrev CMap := List (String × CNode)

/-- JavaScript `Map.set`: replace the value at the key if present,
otherwise append the binding. -/
def mapSet : CMap → String → CNode → CMap
  | [], k, v => [(k, v)]
  | (k1, v1) :: rest, k, v =>
    if k1 = k then (k, v) :: rest else (k1, v1) :: mapSet rest k v

/-- JavaScript `Map.get`: the value at the key, if any. -/
def mapGet : CMap → String → Option CNode
  | [], _ => none
  | (k1, v1) :: rest, k => if k1 = k then some v1 else mapGet rest k

/-- JavaScript truthiness of an optional string (`undefined`, `null` and
the empty string are falsy). -/
def isTruthy : Option String → Bool
  | none => false
  | some s => s ≠ ""

/-- First pass of `organizeComments`: store every comment in the map with
`replies: []` and `depth: 0`. -/
def initMap (l : List Comment) : CMap :=
  l.foldl (fun m c => mapSet m c.id ⟨c, 0, []⟩) []

/-- Mutation of the node stored at `k`, if present. -/
def updateNode (m : CMap) (k : String) (f : CNode → CNode) : CMap :=
  match mapGet m k with
  | none => m
  | some nd => mapSet m k (f nd)

/-- Mutation `node.depth = d` of the node stored at `k`. -/
def setDepth (m : CMap) (k : String) (d : Nat) : CMap :=
  updateNode m k (fun nd => { nd with depth := d })

/-- Mutation `node.replies.push(child)` of the node stored at `k`. -/
def pushReply (m : CMap) (k : String) (child : String) : CMap :=
  updateNode m k (fun nd => { nd with replies := nd.replies ++ [child] })

/-- One iteration of the second `forEach` of `organizeComments`, for the
record `c`, on the state (map, root array).  `none` models the failure of
the non-null assertion `commentMap.get(comment.id)!`.  The branch
structure mirrors the source:
`if (comment.parent_id)` … `if (parent)` … depth update … grandparent
reattachment when `parentDepth >= 1 && parent.parent_id`. -/
def step (st : CMap × List String) (c : Comment) : Option (CMap × List String) :=
  match mapGet st.1 c.id with
  | none => none
  | some _ =>
    if isTruthy c.parent_id then
      let pid := c.parent_id.getD ""
      match mapGet st.1 pid with
      | some parent =>
        let parentDepth := parent.depth
        let m1 := setDepth st.1 c.id (min (parentDepth + 1) 2)
        if parentDepth ≥ 1 ∧ isTruthy parent.comment.parent_id then
          let gpid := parent.comment.parent_id.getD ""
          match mapGet m1 gpid with
          | some _ => some (pushReply m1 gpid c.id, st.2)
          | none => some (pushReply m1 pid c.id, st.2)
        else
          some (pushReply m1 pid c.id, st.2)
      | none => some (st.1, st.2 ++ [c.id])
    else
      some (st.1, st.2 ++ [c.id])

/-- The second `forEach` of `organizeComments`, folded over the input. -/
def pass2 : List Comment → CMap × List String → Option (CMap × List String)
  | [], st => some st
  | c :: cs, st =>
    match step st c with
    | none => none
    | some st1 => pass2 cs st1

/-- Both passes of `organizeComments`, before sorting. -/
def buildPass2 (l : List Comment) : Option (CMap × List String) :=
  pass2 l (initMap l, [])

/-- The sort key of the node at `k`: its `created_at` timestamp
(`new Date(x.created_at).getTime()` in the source). -/
def sortKey (m : CMap) (k : String) : Nat :=
  match mapGet m k with
  | some nd => nd.comment.created_at
  | none => 0

/-- Stable insertion into a list sorted by `sortKey` descending. -/
def insertDesc (m : CMap) (x : String) : List String → List String
  | [] => [x]
  | y :: ys =>
    if sortKey m y ≤ sortKey m x then x :: y :: ys else y :: insertDesc m x ys

/-- The stable descending sort by `created_at` performed by
`arr.sort((a, b) => timeOf b - timeOf a)` (JavaScript array sort is
stable, so the result is the unique stable descending reordering). -/
def sortDesc (m : CMap) (l : List String) : List String :=
  l.foldr (insertDesc m) []

/-- Mutation `node.replies.sort(sortByDate)` of the node stored at `k`. -/
def sortNodeReplies (m : CMap) (k : String) : CMap :=
  updateNode m k (fun nd => { nd with replies := sortDesc m nd.replies })

/-- The replies array of the node stored at `k` (empty when absent). -/
def childrenOf (m : CMap) (k : String) : List String :=
  match mapGet m k with
  | some nd => nd.replies
  | none => []

/-- One iteration of the sorting `forEach` over the root array: sort the
root's `replies`, then sort the `replies` of each of its children. -/
def sortRootStep (acc : CMap) (r : String) : CMap :=
  let acc1 := sortNodeReplies acc r
  (childrenOf acc1 r).foldl (fun a c => sortNodeReplies a c) acc1

/-- The sorting phase of `organizeComments`: sort the root array, then for
each root sort its `replies`, then for each of those children sort their
`replies` (exactly two levels, as in the source). -/
def sortPhase (m : CMap) (roots : List String) : List String × CMap :=
  let roots1 := sortDesc m roots
  (roots1, roots1.foldl sortRootStep m)

/-- `organizeComments` as a graph: the final root-id array and node map,
or `none` where the source's non-null assertion would fail. -/
def organizeGraphOpt (l : List Comment) : Option (List String × CMap) :=
  match buildPass2 l with
  | none => none
  | some (m, roots) => some (sortPhase m roots)

/-- Total form of the graph builder (the assertion in fact never fails,
see the totality theorem). -/
def organizeGraph (l : List Comment) : List String × CMap :=
  (organizeGraphOpt l).getD ([], [])

/-- A node of the returned forest: the record, its `depth`, and its
materialised `replies`. -/
inductive CTree where
  | node (comment : Comment) (depth : Nat) (replies : List CTree)
deriving Repr

def CTree.comment : CTree → Comment
  | .node c _ _ => c

def CTree.depth : CTree → Nat
  | .node _ d _ => d

def CTree.replies : CTree → List CTree
  | .node _ _ r => r

mutual

/-- Materialise the node stored at `k` from the map, consuming `k` from
the availability list; fails on exhausted fuel, an id that is not
available, or a missing key. -/
def matOne (m : CMap) (fuel : Nat) (avail : List String) (k : String) :
    Option (CTree × List String) :=
  match fuel with
  | 0 => none
  | fuel + 1 =>
    if k ∈ avail then
      match mapGet m k with
      | none => none
      | some nd =>
        let r := matMany m fuel (avail.erase k) nd.replies
        some (CTree.node nd.comment nd.depth r.1, r.2)
    else none
termination_by (fuel, 0)

/-- Materialise a list of ids left to right, threading the availability
list and dropping ids that fail. -/
def matMany (m : CMap) (fuel : Nat) (avail : List String) (ks : List String) :
    List CTree × List String :=
  match ks with
  | [] => ([], avail)
  | k :: ks1 =>
    match matOne m fuel avail k with
    | none => matMany m fuel avail ks1
    | some (t, avail1) =>
      let r := matMany m fuel avail1 ks1
      (t :: r.1, r.2)
termination_by (fuel, ks.length + 1)

end

/-- The forest returned by `organizeComments`, materialised from the final
graph with ample fuel and each input id available (once per occurrence,
matching one heap node per map entry). -/
def organizeComments (l : List Comment) : List CTree :=
  let g := organizeGraph l
  (matMany g.2 (l.length + 1) (l.map (fun c => c.id)) g.1).1

/-! ### Observations on the returned forest -/

mutual

/-- Number of nodes of a tree, summed recursively over all replies. -/
def countTree : CTree → Nat
  | .node _ _ ch => 1 + countForest ch

/-- Number of nodes of a forest, summed recursively over all replies. -/
def countForest : List CTree → Nat
  | [] => 0
  | t :: ts => countTree t + countForest ts

end

mutual

/-- The ids of all nodes of a tree, in preorder. -/
def flattenTree : CTree → List String
  | .node c _ ch => c.id :: flattenForest ch

/-- The ids of all nodes of a forest, in preorder. -/
def flattenForest : List CTree → List String
  | [] => []
  | t :: ts => flattenTree t ++ flattenForest ts

end

mutual

/-- Does every node of the tree, placed at ancestor distance `d` from its
root, carry `depth = min d 2` (recursively)? -/
def depthMatchesFrom (d : Nat) : CTree → Bool
  | .node _ dep ch => decide (dep = min d 2) && depthListMatchesFrom (d + 1) ch

def depthListMatchesFrom (d : Nat) : List CTree → Bool
  | [] => true
  | t :: ts => depthMatchesFrom d t && depthListMatchesFrom d ts

end

/-- The predicate of claim C1: every node's `depth` equals the minimum of
2 and its actual ancestor distance from its root in the forest. -/
def depthEqClampedDistance (f : List CTree) : Bool :=
  depthListMatchesFrom 0 f

mutual

/-- Is every `depth` field in the tree at most 2? -/
def depthsLe2Tree : CTree → Bool
  | .node _ dep ch => decide (dep ≤ 2) && depthsLe2Forest ch

/-- Is every `depth` field in the forest at most 2? -/
def depthsLe2Forest : List CTree → Bool
  | [] => true
  | t :: ts => depthsLe2Tree t && depthsLe2Forest ts

end

/-- Does the record `c` appear as a root of the forest with depth 0? -/
def appearsAsRootDepth0 (c : Comment) (f : List CTree) : Bool :=
  f.any fun t => match t with
    | CTree.node c1 d _ => decide (c1 = c) && decide (d = 0)

/-- Similarity of two nodes: same record, same depth, permuted replies. -/
structure NodeSim (nd nd' : CNode) : Prop where
  comment_eq : nd'.comment = nd.comment
  depth_eq : nd'.depth = nd.depth
  replies_perm : nd'.replies.Perm nd.replies

/-- Similarity of two maps: same keys, similar nodes. -/
def MapSim (m m' : CMap) : Prop :=
  ∀ k, (mapGet m k = none ∧ mapGet m' k = none) ∨
       (∃ nd nd', mapGet m k = some nd ∧ mapGet m' k = some nd' ∧ NodeSim nd nd')

/-- Every node depth stored in the map is at most 2. -/
def DepthsLe2 (m : CMap) : Prop :=
  ∀ k nd, mapGet m k = some nd → nd.depth ≤ 2

/-- The first record with the given id, as `parent_id` resolution sees
the input set. -/
def findById (l : List Comment) (k : String) : Option Comment :=
  l.find? (fun c => decide (c.id = k))

/-- The parent reference of the record with id `k`, when that record
exists, its `parent_id` is truthy, and the referenced id is present in
the input set; `none` otherwise. -/
def resolvedParent (l : List Comment) (k : String) : Option String :=
  match findById l k with
  | none => none
  | some c =>
    if isTruthy c.parent_id = true then
      if (findById l (c.parent_id.getD "")).isSome then
        some (c.parent_id.getD "")
      else none
    else none

/-- After its build step, an id sits in the root array or in the replies
array of some node. -/
def InContainer (st : CMap × List String) (k : String) : Prop :=
  k ∈ st.2 ∨ ∃ j nd, mapGet st.1 j = some nd ∧ k ∈ nd.replies

/-- Invariant of the second pass, relative to the full input list `l`
(assumed to have pairwise distinct ids). -/
structure BuildInv (l : List Comment) (st : CMap × List String) : Prop where
  keys : ∀ k, (mapGet st.1 k).isSome = (findById l k).isSome
  node_comment : ∀ k nd, mapGet st.1 k = some nd → findById l k = some nd.comment
  replies_parent : ∀ j nd k, mapGet st.1 j = some nd → k ∈ nd.replies →
    resolvedParent l k = some j ∨
    ∃ p, resolvedParent l k = some p ∧ resolvedParent l p = some j
  roots_unparented : ∀ k, k ∈ st.2 →
    resolvedParent l k = none ∧ (findById l k).isSome = true
  unparented_depth0 : ∀ k nd, resolvedParent l k = none →
    mapGet st.1 k = some nd → nd.depth = 0

/-- Does the chain of resolved parents starting at `k` reach a record
with no resolved parent within `fuel` steps? -/
def parentChainEnds (l : List Comment) : Nat → String → Bool
  | 0, k => (resolvedParent l k).isNone
  | fuel + 1, k =>
    match resolvedParent l k with
    | none => true
    | some p => parentChainEnds l fuel p

/-- The parent references of the input are acyclic: from every record the
chain of resolved parents terminates. -/
def Acyclic (l : List Comment) : Prop :=
  ∀ c ∈ l, parentChainEnds l l.length c.id = true

/-- Length of the resolved-parent chain from `k`, cut off at `fuel`. -/
def parentRank (l : List Comment) : Nat → String → Nat
  | 0, _ => 0
  | fuel + 1, k =>
    match resolvedParent l k with
    | none => 0
    | some p => parentRank l fuel p + 1

/-- A list of ids sorted by `created_at` descending (ties adjacent). -/
def PairwiseKey (m : CMap) (xs : List String) : Prop :=
  List.Pairwise (fun a b => sortKey m b ≤ sortKey m a) xs

/-- The node stored at `k` in `mm` (if any) has replies sorted by
`created_at` descending, keys read through the reference map `m`. -/
def SortedReplies (m mm : CMap) (k : String) : Prop :=
  ∀ nd, mapGet mm k = some nd → PairwiseKey m nd.replies

/-- The sortedness guarantee of claim C7: the root sequence is sorted by
`created_at` descending, as is every root's replies sequence and every
reply's replies sequence (the two levels the source sorts). -/
def forestSortedTwoLevels (f : List CTree) : Prop :=
  List.Pairwise (fun a b => b.comment.created_at ≤ a.comment.created_at) f ∧
  ∀ t ∈ f,
    List.Pairwise (fun a b => b.comment.created_at ≤ a.comment.created_at)
      t.replies ∧
    ∀ u ∈ t.replies,
      List.Pairwise (fun a b => b.comment.created_at ≤ a.comment.created_at)
        u.replies

/-- Clear the soft-deletion flag of a record (the "not deleted" variant
used to state claim C8). -/
def scrubComment (c : Comment) : Comment :=
  { c with is_deleted := false }

/-- Clear the soft-deletion flag of a stored node. -/
def scrubNode (nd : CNode) : CNode :=
  { nd with comment := scrubComment nd.comment }

/-- Clear the soft-deletion flags of all stored nodes. -/
def scrubMap (m : CMap) : CMap :=
  m.map (fun kv => (kv.1, scrubNode kv.2))

mutual

/-- Clear the soft-deletion flags of all records of a tree. -/
def scrubTree : CTree → CTree
  | .node c d ch => .node (scrubComment c) d (scrubForest ch)

/-- Clear the soft-deletion flags of all records of a forest. -/
def scrubForest : List CTree → List CTree
  | [] => []
  | t :: ts => scrubTree t :: scrubForest ts

end

/-! ### Concrete inputs used by the claims -/

/-- The three-record chain of the spec's example: comment 2 replies to 1,
comment 3 replies to 2, in input order 1, 2, 3. -/
def chain3 (t1 t2 t3 : Nat) : List Comment :=
  [{ id := "1", created_at := t1 },
   { id := "2", parent_id := some "1", created_at := t2 },
   { id := "3", parent_id := some "2", created_at := t3 }]

/-- The four-comment chain A ← B ← C ← D (each replying to the previous),
in input order A, B, C, D. -/
def chain4 (t1 t2 t3 t4 : Nat) : List Comment :=
  [{ id := "a", created_at := t1 },
   { id := "b", parent_id := some "a", created_at := t2 },
   { id := "c", parent_id := some "b", created_at := t3 },
   { id := "d", parent_id := some "c", created_at := t4 }]

/-- Two records (with distinct ids) whose parent references form a cycle. -/
def cyclePair : List Comment :=
  [{ id := "a", parent_id := some "b", created_at := 1 },
   { id := "b", parent_id := some "a", created_at := 2 }]

/-- The exact shape asserted by claim C3: one root (id 1, depth 0) whose
only child is id 2 (depth 1), id 3 (depth 2) being a child of id 2. -/
def c3ClaimShape (f : List CTree) : Bool :=
  match f with
  | [CTree.node c1 d1 [CTree.node c2 d2 [CTree.node c3 d3 []]]] =>
    decide (c1.id = "1") && decide (d1 = 0) && decide (c2.id = "2") &&
    decide (d2 = 1) && decide (c3.id = "3") && decide (d3 = 2)
  | _ => false

/-- Three records where the id `"x"` appears twice (claim C6 quantifies
over every input sequence, without requiring unique identifiers). -/
def dupIds : List Comment :=
  [{ id := "x", created_at := 5 },
   { id := "x", parent_id := some "y", content := "second", created_at := 1 },
   { id := "y", created_at := 3 }]

/-! ### The component state update of `fetchComments` -/

/-- `COMMENTS_PER_PAGE` of the source. -/
def COMMENTS_PER_PAGE : Nat := 20

/-- The comment-section component state touched by `fetchComments`:
`comments`, `offset`, `hasMore`. -/
structure CommentsState where
  comments : List CTree
  offset : Nat
  hasMore : Bool
deriving Repr

/-- The synchronous state update `fetchComments` performs once the page
data has arrived: `currentOffset = loadMore ? offset : 0`, build the
forest from the fetched page only, then either append it
(`setComments([...comments, ...organizedComments])`) or replace the list;
update `hasMore` from the exact count and advance `offset` on load-more. -/
def applyFetch (st : CommentsState) (loadMore : Bool) (page : List Comment)
    (count : Nat) : CommentsState :=
  let currentOffset := if loadMore then st.offset else 0
  let organized := organizeComments page
  { comments := if loadMore then st.comments ++ organized else organized
    offset := if loadMore then currentOffset + COMMENTS_PER_PAGE else st.offset
    hasMore := decide (currentOffset + COMMENTS_PER_PAGE < count) }

/-! ### The submit handlers -/

/-- The row `handleSubmit` / `handleReplySubmit` insert into the
`comments` collection. -/
structure NewCommentRow where
  post_id : String
  user_id : String
  content : String
  parent_id : Option String
deriving DecidableEq, Repr

/-- Outcome of a submit handler: an early return with an error toast, or
an attempted insert of a row. -/
inductive SubmitOutcome where
  | needLogin
  | emptyError
  | tooLongError
  | inserted (row : NewCommentRow)
deriving DecidableEq, Repr

/-- Whether the outcome attempted an insert. -/
def SubmitOutcome.isInserted : SubmitOutcome → Bool
  | .inserted _ => true
  | _ => false

/-- Validation and insert of `handleSubmit`: require a user, a non-blank
`newComment.trim()`, `newComment.length <= 1000`; insert the trimmed
content with `parent_id: null`. -/
def handleSubmit (user : Option String) (postId : String)
    (newComment : String) : SubmitOutcome :=
  match user with
  | none => .needLogin
  | some uid =>
    if newComment.trim = "" then .emptyError
    else if newComment.length > 1000 then .tooLongError
    else .inserted ⟨postId, uid, newComment.trim, none⟩

/-- Validation and insert of `handleReplySubmit`: same checks on
`replyContent`; insert the trimmed content with `parent_id: parentId`. -/
def handleReplySubmit (user : Option String) (postId : String)
    (parentId : String) (replyContent : String) : SubmitOutcome :=
  match user with
  | none => .needLogin
  | some uid =>
    if replyContent.trim = "" then .emptyError
    else if replyContent.length > 1000 then .tooLongError
    else .inserted ⟨postId, uid, replyContent.trim, some parentId⟩

/-! ### Lemmas about the map operations -/

theorem mapGet_mapSet (m : CMap) (k : String) (v : CNode) (k' : String) :
    mapGet (mapSet m k v) k' = if k' = k then some v else mapGet m k' := by
  induction m with
  | nil =>
    by_cases h : k' = k <;> simp [mapSet, mapGet, h, Ne.symm]
  | cons kv rest ih =>
    obtain ⟨k1, v1⟩ := kv
    by_cases h1 : k1 = k
    · subst h1
      by_cases h : k' = k1 <;> simp [mapSet, mapGet, h, Ne.symm]
    · by_cases h : k' = k1
      · subst h
        simp [mapSet, mapGet, h1, Ne.symm h1]
      · simp [mapSet, mapGet, h1, h, Ne.symm h, ih]

theorem mapGet_updateNode (m : CMap) (k : String) (f : CNode → CNode)
    (k' : String) :
    mapGet (updateNode m k f) k' =
      if k' = k then (mapGet m k).map f else mapGet m k' := by
  unfold updateNode
  cases h : mapGet m k with
  | none =>
    by_cases hk : k' = k <;> simp [hk, h]
  | some nd =>
    rw [mapGet_mapSet]
    by_cases hk : k' = k <;> simp [hk, h]

theorem mapGet_setDepth (m : CMap) (j : String) (d : Nat) (k : String) :
    mapGet (setDepth m j d) k =
      if k = j then (mapGet m j).map (fun nd => { nd with depth := d })
      else mapGet m k :=
  mapGet_updateNode m j _ k

theorem mapGet_pushReply (m : CMap) (j : String) (c : String) (k : String) :
    mapGet (pushReply m j c) k =
      if k = j then (mapGet m j).map
        (fun nd => { nd with replies := nd.replies ++ [c] })
      else mapGet m k :=
  mapGet_updateNode m j _ k

theorem mapGet_isSome_updateNode (m : CMap) (j : String) (f : CNode → CNode)
    (k : String) :
    (mapGet (updateNode m j f) k).isSome = (mapGet m k).isSome := by
  rw [mapGet_updateNode]
  by_cases hk : k = j
  · subst hk; cases mapGet m k <;> simp
  · simp [hk]

/-! ### Totality of the builder (claim C9) -/

theorem mapGet_isSome_foldl_mapSet (l : List Comment) (k : String) :
    ∀ m : CMap, (mapGet m k).isSome = true →
      (mapGet (l.foldl (fun m c => mapSet m c.id ⟨c, 0, []⟩) m) k).isSome = true := by
  induction l with
  | nil => intro m h; exact h
  | cons c cs ih =>
    intro m h
    refine ih _ ?_
    rw [mapGet_mapSet]
    by_cases hk : k = c.id <;> simp [hk, h]

theorem mapGet_foldl_mapSet_mem (l : List Comment) :
    ∀ (m : CMap) (c : Comment), c ∈ l →
      (mapGet (l.foldl (fun m c => mapSet m c.id ⟨c, 0, []⟩) m) c.id).isSome = true := by
  induction l with
  | nil => intro m c hc; cases hc
  | cons d ds ih =>
    intro m c hc
    rcases List.mem_cons.mp hc with h | h
    · subst h
      simp only [List.foldl_cons]
      refine mapGet_isSome_foldl_mapSet ds c.id _ ?_
      rw [mapGet_mapSet]
      simp
    · simp only [List.foldl_cons]
      exact ih _ c h

theorem mapGet_initMap_isSome (l : List Comment) (c : Comment) (hc : c ∈ l) :
    (mapGet (initMap l) c.id).isSome = true :=
  mapGet_foldl_mapSet_mem l [] c hc

theorem step_isSome (st : CMap × List String) (c : Comment)
    (h : (mapGet st.1 c.id).isSome = true) :
    ∃ st1, step st c = some st1 := by
  unfold step
  cases hg : mapGet st.1 c.id with
  | none => rw [hg] at h; simp at h
  | some nd =>
    by_cases ht : isTruthy c.parent_id = true
    · simp only [ht, if_true]
      cases hp : mapGet st.1 (c.parent_id.getD "") with
      | none => exact ⟨_, rfl⟩
      | some parent =>
        by_cases hd : parent.depth ≥ 1 ∧ isTruthy parent.comment.parent_id = true
        · simp only [hd, if_true]
          cases hgp : mapGet (setDepth st.1 c.id (min (parent.depth + 1) 2))
              (parent.comment.parent_id.getD "") with
          | none => exact ⟨_, rfl⟩
          | some gp => exact ⟨_, rfl⟩
        · simp only [hd, if_false]
          exact ⟨_, rfl⟩
    · simp only [Bool.not_eq_true] at ht
      simp only [ht, Bool.false_eq_true, if_false]
      exact ⟨_, rfl⟩

theorem step_preserves_isSome (st st1 : CMap × List String) (c : Comment)
    (hs : step st c = some st1) (k : String) :
    (mapGet st1.1 k).isSome = (mapGet st.1 k).isSome := by
  unfold step at hs
  cases hg : mapGet st.1 c.id with
  | none => rw [hg] at hs; cases hs
  | some nd =>
    rw [hg] at hs
    by_cases ht : isTruthy c.parent_id = true
    · simp only [ht, if_true] at hs
      cases hp : mapGet st.1 (c.parent_id.getD "") with
      | none =>
        rw [hp] at hs
        cases hs
        rfl
      | some parent =>
        rw [hp] at hs
        by_cases hd : parent.depth ≥ 1 ∧ isTruthy parent.comment.parent_id = true
        · simp only [hd, if_true] at hs
          cases hgp : mapGet (setDepth st.1 c.id (min (parent.depth + 1) 2))
              (parent.comment.parent_id.getD "") with
          | none =>
            rw [hgp] at hs
            cases hs
            simp only [pushReply, setDepth]
            rw [mapGet_isSome_updateNode, mapGet_isSome_updateNode]
          | some gp =>
            rw [hgp] at hs
            cases hs
            simp only [pushReply, setDepth]
            rw [mapGet_isSome_updateNode, mapGet_isSome_updateNode]
        · simp only [hd, if_false] at hs
          cases hs
          simp only [pushReply, setDepth]
          rw [mapGet_isSome_updateNode, mapGet_isSome_updateNode]
    · simp only [Bool.not_eq_true] at ht
      simp only [ht, Bool.false_eq_true, if_false] at hs
      cases hs
      rfl

theorem pass2_isSome (cs : List Comment) (st : CMap × List String)
    (h : ∀ c ∈ cs, (mapGet st.1 c.id).isSome = true) :
    ∃ st1, pass2 cs st = some st1 := by
  induction cs generalizing st with
  | nil => exact ⟨st, rfl⟩
  | cons c cs ih =>
    obtain ⟨st1, hst1⟩ := step_isSome st c (h c (List.mem_cons_self c cs))
    have hkeys : ∀ d ∈ cs, (mapGet st1.1 d.id).isSome = true := by
      intro d hd
      rw [step_preserves_isSome st st1 c hst1]
      exact h d (List.mem_cons_of_mem c hd)
    obtain ⟨st2, hst2⟩ := ih st1 hkeys
    exact ⟨st2, by simp [pass2, hst1, hst2]⟩

theorem buildPass2_isSome (l : List Comment) :
    ∃ m roots, buildPass2 l = some (m, roots) := by
  obtain ⟨st1, hst1⟩ := pass2_isSome l (initMap l, [])
    (fun c hc => mapGet_initMap_isSome l c hc)
  exact ⟨st1.1, st1.2, hst1⟩

theorem organizeGraph_eq (l : List Comment) :
    ∃ m roots, buildPass2 l = some (m, roots) ∧
      organizeGraph l = sortPhase m roots := by
  obtain ⟨m, roots, h⟩ := buildPass2_isSome l
  exact ⟨m, roots, h, by simp [organizeGraph, organizeGraphOpt, h]⟩

/-- Claim C9: `organizeComments` is total; the non-null assertion on the
map lookup of each comment's own id never fails, because the first pass
inserts every input record into the index. -/
theorem claim_C9 (l : List Comment) : ∃ g, organizeGraphOpt l = some g := by
  obtain ⟨m, roots, hst1⟩ := buildPass2_isSome l
  exact ⟨sortPhase m roots, by
    simp only [organizeGraphOpt, hst1]⟩

/-! ### The sort phase permutes, and preserves comments and depths -/

theorem insertDesc_perm (m : CMap) (x : String) (ys : List String) :
    (insertDesc m x ys).Perm (x :: ys) := by
  induction ys with
  | nil => simp [insertDesc]
  | cons y ys ih =>
    by_cases h : sortKey m y ≤ sortKey m x
    · simp [insertDesc, h]
    · simp only [insertDesc, if_neg h]
      exact ((ih.cons y).trans (List.Perm.swap x y ys)).symm.symm

theorem sortDesc_perm (m : CMap) (l : List String) :
    (sortDesc m l).Perm l := by
  induction l with
  | nil => simp [sortDesc]
  | cons a l ih =>
    simp only [sortDesc, List.foldr_cons]
    exact (insertDesc_perm m a _).trans (ih.cons a)



theorem MapSim.refl (m : CMap) : MapSim m m := by
  intro k
  cases h : mapGet m k with
  | none => exact Or.inl ⟨rfl, rfl⟩
  | some nd => exact Or.inr ⟨nd, nd, rfl, rfl, ⟨rfl, rfl, List.Perm.refl _⟩⟩

theorem MapSim.trans {m1 m2 m3 : CMap} (h12 : MapSim m1 m2)
    (h23 : MapSim m2 m3) : MapSim m1 m3 := by
  intro k
  rcases h12 k with ⟨ha, hb⟩ | ⟨nd1, nd2, ha, hb, hsim⟩
  · rcases h23 k with ⟨hc, hd⟩ | ⟨nd2, nd3, hc, hd, _⟩
    · exact Or.inl ⟨ha, hd⟩
    · rw [hb] at hc; cases hc
  · rcases h23 k with ⟨hc, hd⟩ | ⟨nd2', nd3, hc, hd, hsim'⟩
    · rw [hb] at hc; cases hc
    · rw [hb] at hc
      injection hc with hc
      subst hc
      exact Or.inr ⟨nd1, nd3, ha, hd,
        ⟨hsim'.comment_eq.trans hsim.comment_eq,
         hsim'.depth_eq.trans hsim.depth_eq,
         hsim'.replies_perm.trans hsim.replies_perm⟩⟩

theorem mapSim_sortNodeReplies (m : CMap) (k : String) :
    MapSim m (sortNodeReplies m k) := by
  intro j
  by_cases hj : j = k
  · subst hj
    rw [sortNodeReplies, mapGet_updateNode, if_pos rfl]
    cases h : mapGet m j with
    | none => exact Or.inl ⟨rfl, rfl⟩
    | some nd =>
      exact Or.inr ⟨nd, _, rfl, rfl, ⟨rfl, rfl, sortDesc_perm m nd.replies⟩⟩
  · rw [sortNodeReplies, mapGet_updateNode, if_neg hj]
    exact MapSim.refl m j

theorem mapSim_foldl_sorts (ks : List String) :
    ∀ m : CMap, MapSim m (ks.foldl (fun a c => sortNodeReplies a c) m) := by
  induction ks with
  | nil => intro m; exact MapSim.refl m
  | cons k ks ih =>
    intro m
    simp only [List.foldl_cons]
    exact (mapSim_sortNodeReplies m k).trans (ih _)

theorem mapSim_sortRootStep (m : CMap) (r : String) :
    MapSim m (sortRootStep m r) := by
  rw [sortRootStep]
  exact (mapSim_sortNodeReplies m r).trans (mapSim_foldl_sorts _ _)

theorem mapSim_sortPhase (m : CMap) (roots : List String) :
    MapSim m (sortPhase m roots).2 := by
  rw [sortPhase]
  generalize sortDesc m roots = roots1
  induction roots1 generalizing m with
  | nil => exact MapSim.refl m
  | cons r rs ih =>
    simp only [List.foldl_cons]
    exact MapSim.trans (mapSim_sortRootStep m r) (ih _)

/-- The roots list returned by `sortPhase` is a permutation of the one it
was given. -/
theorem sortPhase_roots_perm (m : CMap) (roots : List String) :
    (sortPhase m roots).1.Perm roots :=
  sortDesc_perm m roots

theorem MapSim.lookup {m m2 : CMap} (h : MapSim m m2) {k : String}
    {nd' : CNode} (hk : mapGet m2 k = some nd') :
    ∃ nd, mapGet m k = some nd ∧ nd'.comment = nd.comment ∧
      nd'.depth = nd.depth ∧ nd'.replies.Perm nd.replies := by
  rcases h k with ⟨_, hb⟩ | ⟨nd, nd2, ha, hb, hs⟩
  · rw [hk] at hb; cases hb
  · rw [hk] at hb
    injection hb with hb
    subst hb
    exact ⟨nd, ha, hs.comment_eq, hs.depth_eq, hs.replies_perm⟩

theorem MapSim.lookup_fwd {m m2 : CMap} (h : MapSim m m2) {k : String}
    {nd : CNode} (hk : mapGet m k = some nd) :
    ∃ nd', mapGet m2 k = some nd' ∧ nd'.comment = nd.comment ∧
      nd'.depth = nd.depth ∧ nd'.replies.Perm nd.replies := by
  rcases h k with ⟨ha, _⟩ | ⟨nd0, nd2, ha, hb, hs⟩
  · rw [hk] at ha; cases ha
  · rw [hk] at ha
    injection ha with ha
    subst ha
    exact ⟨nd2, hb, hs.comment_eq, hs.depth_eq, hs.replies_perm⟩

/-! ### Shape of one build step -/

/-- Case analysis of a successful `step`: either the record is appended to
the root array (falsy or unresolvable parent, map unchanged), or its node
depth is set to `min(parentDepth+1, 2)` and its id is pushed onto the
replies of `j`, where `j` is the parent id, or the grandparent id when
`parentDepth ≥ 1`, the parent's own `parent_id` is truthy and resolves. -/
theorem step_cases (st st1 : CMap × List String) (c : Comment)
    (hs : step st c = some st1) :
    ((isTruthy c.parent_id = false ∨
        mapGet st.1 (c.parent_id.getD "") = none) ∧
      st1.1 = st.1 ∧ st1.2 = st.2 ++ [c.id]) ∨
    (∃ parent j,
      isTruthy c.parent_id = true ∧
      mapGet st.1 (c.parent_id.getD "") = some parent ∧
      st1.1 = pushReply (setDepth st.1 c.id (min (parent.depth + 1) 2)) j c.id ∧
      st1.2 = st.2 ∧
      (j = c.parent_id.getD "" ∨
        (parent.depth ≥ 1 ∧ isTruthy parent.comment.parent_id = true ∧
          j = parent.comment.parent_id.getD "" ∧
          (mapGet st.1 j).isSome = true))) := by
  unfold step at hs
  cases hg : mapGet st.1 c.id with
  | none => rw [hg] at hs; cases hs
  | some nd =>
    rw [hg] at hs
    by_cases ht : isTruthy c.parent_id = true
    · simp only [ht, if_true] at hs
      cases hp : mapGet st.1 (c.parent_id.getD "") with
      | none =>
        rw [hp] at hs
        cases hs
        exact Or.inl ⟨Or.inr rfl, rfl, rfl⟩
      | some parent =>
        rw [hp] at hs
        by_cases hd : parent.depth ≥ 1 ∧ isTruthy parent.comment.parent_id = true
        · simp only [hd, if_true] at hs
          cases hgp : mapGet (setDepth st.1 c.id (min (parent.depth + 1) 2))
              (parent.comment.parent_id.getD "") with
          | none =>
            rw [hgp] at hs
            cases hs
            exact Or.inr ⟨parent, _, ht, rfl, rfl, rfl, Or.inl rfl⟩
          | some gp =>
            rw [hgp] at hs
            cases hs
            refine Or.inr ⟨parent, _, ht, rfl, rfl, rfl, Or.inr
              ⟨hd.1, hd.2, rfl, ?_⟩⟩
            have h1 : (mapGet (setDepth st.1 c.id (min (parent.depth + 1) 2))
                (parent.comment.parent_id.getD "")).isSome = true := by
              rw [hgp]; rfl
            rwa [setDepth, mapGet_isSome_updateNode] at h1
        · simp only [hd, if_false] at hs
          cases hs
          exact Or.inr ⟨parent, _, ht, rfl, rfl, rfl, Or.inl rfl⟩
    · simp only [Bool.not_eq_true] at ht
      simp only [ht, Bool.false_eq_true, if_false] at hs
      cases hs
      exact Or.inl ⟨Or.inl ht, rfl, rfl⟩

/-! ### All depths stay at most 2 (claim C1, amended) -/


theorem depthsLe2_foldl_init (l : List Comment) :
    ∀ m : CMap, DepthsLe2 m →
      DepthsLe2 (l.foldl (fun m c => mapSet m c.id ⟨c, 0, []⟩) m) := by
  induction l with
  | nil => intro m h; exact h
  | cons c cs ih =>
    intro m h
    refine ih _ ?_
    intro k nd hk
    rw [mapGet_mapSet] at hk
    by_cases hkc : k = c.id
    · rw [if_pos hkc] at hk
      injection hk with hk
      subst hk
      exact Nat.zero_le 2
    · rw [if_neg hkc] at hk
      exact h k nd hk

theorem depthsLe2_initMap (l : List Comment) : DepthsLe2 (initMap l) := by
  refine depthsLe2_foldl_init l [] ?_
  intro k nd hk
  simp [mapGet] at hk

theorem depthsLe2_updateNode (m : CMap) (j : String) (f : CNode → CNode)
    (h : DepthsLe2 m) (hf : ∀ nd, mapGet m j = some nd → (f nd).depth ≤ 2) :
    DepthsLe2 (updateNode m j f) := by
  intro k nd hk
  rw [mapGet_updateNode] at hk
  by_cases hkj : k = j
  · rw [if_pos hkj] at hk
    cases hm : mapGet m j with
    | none => rw [hm] at hk; cases hk
    | some nd0 =>
      rw [hm] at hk
      injection hk with hk
      subst hk
      exact hf nd0 hm
  · rw [if_neg hkj] at hk
    exact h k nd hk

theorem depthsLe2_step (st st1 : CMap × List String) (c : Comment)
    (hs : step st c = some st1) (h : DepthsLe2 st.1) : DepthsLe2 st1.1 := by
  rcases step_cases st st1 c hs with ⟨_, hm, _⟩ | ⟨parent, j, _, _, hm, _, _⟩
  · rw [hm]; exact h
  · rw [hm]
    have hset : DepthsLe2 (setDepth st.1 c.id (min (parent.depth + 1) 2)) := by
      refine depthsLe2_updateNode _ _ _ h ?_
      intro nd _
      simp only []
      omega
    refine depthsLe2_updateNode _ _ _ hset ?_
    intro nd hnd
    exact hset j nd hnd

theorem depthsLe2_pass2 :
    ∀ (cs : List Comment) (st st1 : CMap × List String),
      pass2 cs st = some st1 → DepthsLe2 st.1 → DepthsLe2 st1.1 := by
  intro cs
  induction cs with
  | nil =>
    intro st st1 hp h
    simp only [pass2] at hp
    injection hp with hp
    subst hp
    exact h
  | cons c cs ih =>
    intro st st1 hp h
    simp only [pass2] at hp
    cases hstep : step st c with
    | none => rw [hstep] at hp; cases hp
    | some st2 =>
      rw [hstep] at hp
      exact ih st2 st1 hp (depthsLe2_step st st2 c hstep h)

theorem depthsLe2_mapSim (m m' : CMap) (hsim : MapSim m m')
    (h : DepthsLe2 m) : DepthsLe2 m' := by
  intro k nd' hk
  rcases hsim k with ⟨_, hb⟩ | ⟨nd, nd2, ha, hb, hns⟩
  · rw [hk] at hb; cases hb
  · rw [hk] at hb
    injection hb with hb
    subst hb
    rw [hns.depth_eq]
    exact h k nd ha

theorem mat_depthsLe2 (m : CMap) (hm : DepthsLe2 m) : ∀ fuel : Nat,
    (∀ avail k t av1, matOne m fuel avail k = some (t, av1) →
      depthsLe2Tree t = true) ∧
    (∀ avail ks, depthsLe2Forest (matMany m fuel avail ks).1 = true) := by
  intro fuel
  induction fuel with
  | zero =>
    constructor
    · intro avail k t av1 h
      simp [matOne] at h
    · intro avail ks
      induction ks with
      | nil => simp [matMany, depthsLe2Forest]
      | cons k ks ih => simp [matMany, matOne, ih]
  | succ fuel ih =>
    have hone : ∀ avail k t av1, matOne m (fuel + 1) avail k = some (t, av1) →
        depthsLe2Tree t = true := by
      intro avail k t av1 h
      simp only [matOne] at h
      split at h
      · cases hg : mapGet m k with
        | none => rw [hg] at h; cases h
        | some nd =>
          rw [hg] at h
          injection h with h
          have ht : t = CTree.node nd.comment nd.depth
              (matMany m fuel (avail.erase k) nd.replies).1 :=
            congrArg Prod.fst h.symm
          subst ht
          simp only [depthsLe2Tree, Bool.and_eq_true, decide_eq_true_eq]
          exact ⟨hm k nd hg, ih.2 _ _⟩
      · cases h
    refine ⟨hone, ?_⟩
    intro avail ks
    induction ks generalizing avail with
    | nil => simp [matMany, depthsLe2Forest]
    | cons k ks ihk =>
      cases h : matOne m (fuel + 1) avail k with
      | none =>
        simp only [matMany, h]
        exact ihk avail
      | some t_av =>
        obtain ⟨t, av1⟩ := t_av
        simp only [matMany, h, depthsLe2Forest, Bool.and_eq_true]
        exact ⟨hone avail k t av1 h, ihk av1⟩

/-- Claim C1 amended: every node of the forest returned by
`organizeComments` carries a `depth` in {0, 1, 2} (the field is set only
to 0 or to `min(parentDepth+1, 2)`); the clamped-distance equality of the
original claim fails, see the counterexample. -/
theorem claim_C1_amended (l : List Comment) :
    depthsLe2Forest (organizeComments l) = true := by
  obtain ⟨m, roots, hb, hg⟩ := organizeGraph_eq l
  have h0 : DepthsLe2 (initMap l) := depthsLe2_initMap l
  have h1 : DepthsLe2 m := by
    have := depthsLe2_pass2 l (initMap l, []) (m, roots) ?_ h0
    · exact this
    · exact hb
  have h2 : DepthsLe2 (sortPhase m roots).2 :=
    depthsLe2_mapSim _ _ (mapSim_sortPhase m roots) h1
  unfold organizeComments
  rw [hg]
  exact (mat_depthsLe2 _ h2 (l.length + 1)).2 _ _

/-! ### Records, ids and resolved parents -/

theorem findById_eq_none {l : List Comment} {k : String} :
    findById l k = none ↔ ∀ c ∈ l, c.id ≠ k := by
  simp [findById, List.find?_eq_none]

theorem findById_some_mem {l : List Comment} {k : String} {c : Comment}
    (h : findById l k = some c) : c ∈ l ∧ c.id = k := by
  refine ⟨List.mem_of_find?_eq_some h, ?_⟩
  have := List.find?_some h
  simpa using this

theorem findById_self {l : List Comment}
    (hnodup : (l.map (fun c => c.id)).Nodup) {c : Comment} (hc : c ∈ l) :
    findById l c.id = some c := by
  induction l with
  | nil => cases hc
  | cons d ds ih =>
    simp only [List.map_cons, List.nodup_cons] at hnodup
    rcases List.mem_cons.mp hc with h | h
    · subst h
      simp [findById]
    · have hd : ¬ (d.id = c.id) := by
        intro he
        exact hnodup.1 (he ▸ List.mem_map_of_mem (fun c => c.id) h)
      simp only [findById, List.find?_cons]
      rw [decide_eq_false hd]
      exact ih hnodup.2 h

theorem mapGet_foldl_init_eq (cs : List Comment)
    (h : (cs.map (fun c => c.id)).Nodup) :
    ∀ (m : CMap) (k : String),
      mapGet (cs.foldl (fun m c => mapSet m c.id ⟨c, 0, []⟩) m) k =
        (match findById cs k with
          | some c => some (⟨c, 0, []⟩ : CNode)
          | none => mapGet m k) := by
  induction cs with
  | nil => intro m k; simp [findById]
  | cons c cs ih =>
    intro m k
    simp only [List.map_cons, List.nodup_cons] at h
    simp only [List.foldl_cons]
    rw [ih h.2]
    by_cases hk : c.id = k
    · subst hk
      have hnone : findById cs c.id = none := by
        rw [findById_eq_none]
        intro d hd he
        exact h.1 (he ▸ List.mem_map_of_mem (fun c => c.id) hd)
      rw [hnone]
      have hcons : findById (c :: cs) c.id = some c := by
        simp [findById]
      rw [hcons, mapGet_mapSet]
      simp
    · have hcons : findById (c :: cs) k = findById cs k := by
        simp only [findById, List.find?_cons]
        rw [decide_eq_false hk]
      rw [hcons]
      cases hf : findById cs k with
      | some d => rfl
      | none =>
        rw [mapGet_mapSet]
        rw [if_neg (fun he => hk he.symm)]

theorem mapGet_initMap_eq (l : List Comment)
    (hnodup : (l.map (fun c => c.id)).Nodup) (k : String) :
    mapGet (initMap l) k =
      (findById l k).map (fun c => (⟨c, 0, []⟩ : CNode)) := by
  rw [initMap, mapGet_foldl_init_eq l hnodup []]
  cases findById l k <;> simp [mapGet]

theorem resolvedParent_eq_some {l : List Comment} {k : String}
    {rec : Comment} (hf : findById l k = some rec)
    (ht : isTruthy rec.parent_id = true)
    (hs : (findById l (rec.parent_id.getD "")).isSome = true) :
    resolvedParent l k = some (rec.parent_id.getD "") := by
  rw [resolvedParent, hf]
  simp [ht, hs]

theorem resolvedParent_eq_none_falsy {l : List Comment} {k : String}
    {rec : Comment} (hf : findById l k = some rec)
    (ht : isTruthy rec.parent_id = false) :
    resolvedParent l k = none := by
  rw [resolvedParent, hf]
  simp [ht]

theorem resolvedParent_eq_none_unres {l : List Comment} {k : String}
    {rec : Comment} (hf : findById l k = some rec)
    (hs : findById l (rec.parent_id.getD "") = none) :
    resolvedParent l k = none := by
  rw [resolvedParent, hf]
  cases isTruthy rec.parent_id <;> simp [hs]

/-! ### Node evolution through `updateNode` -/

theorem mapGet_updateNode_rev {m : CMap} {j : String} {f : CNode → CNode}
    {k : String} {nd' : CNode}
    (h : mapGet (updateNode m j f) k = some nd') :
    (k = j ∧ ∃ nd, mapGet m k = some nd ∧ nd' = f nd) ∨
    (k ≠ j ∧ mapGet m k = some nd') := by
  rw [mapGet_updateNode] at h
  by_cases hk : k = j
  · subst hk
    rw [if_pos rfl] at h
    cases hm : mapGet m k with
    | none => rw [hm] at h; cases h
    | some nd =>
      rw [hm] at h
      injection h with h
      exact Or.inl ⟨rfl, nd, rfl, h.symm⟩
  · rw [if_neg hk] at h
    exact Or.inr ⟨hk, h⟩

theorem mapGet_updateNode_fwd {m : CMap} {k : String} {nd : CNode}
    (j : String) (f : CNode → CNode) (h : mapGet m k = some nd) :
    (k = j ∧ mapGet (updateNode m j f) k = some (f nd)) ∨
    (k ≠ j ∧ mapGet (updateNode m j f) k = some nd) := by
  rw [mapGet_updateNode]
  by_cases hk : k = j
  · subst hk
    rw [if_pos rfl, h]
    exact Or.inl ⟨rfl, rfl⟩
  · rw [if_neg hk]
    exact Or.inr ⟨hk, h⟩

theorem inReplies_updateNode (j : String) (f : CNode → CNode)
    (hf : ∀ nd, nd.replies ⊆ (f nd).replies)
    {m : CMap} {j0 k : String} {nd : CNode}
    (hj : mapGet m j0 = some nd) (hk : k ∈ nd.replies) :
    ∃ nd', mapGet (updateNode m j f) j0 = some nd' ∧ k ∈ nd'.replies := by
  rcases mapGet_updateNode_fwd j f hj with ⟨hEq, h1⟩ | ⟨hne, h1⟩
  · exact ⟨f nd, h1, hf nd hk⟩
  · exact ⟨nd, h1, hk⟩

theorem pushReply_self_mem {m : CMap} {j : String} (x : String)
    (h : (mapGet m j).isSome = true) :
    ∃ nd', mapGet (pushReply m j x) j = some nd' ∧ x ∈ nd'.replies := by
  cases hm : mapGet m j with
  | none => rw [hm] at h; cases h
  | some nd =>
    rcases mapGet_updateNode_fwd j
        (fun nd => { nd with replies := nd.replies ++ [x] }) hm with
      ⟨_, h1⟩ | ⟨hne, _⟩
    · exact ⟨_, h1, by simp⟩
    · exact absurd rfl hne

/-! ### The invariant holds through the build -/

theorem buildInv_init (l : List Comment)
    (hnodup : (l.map (fun c => c.id)).Nodup) :
    BuildInv l (initMap l, []) := by
  refine ⟨?_, ?_, ?_, ?_, ?_⟩ <;> dsimp only
  · intro k
    rw [mapGet_initMap_eq l hnodup k]
    cases findById l k <;> simp
  · intro k nd h
    rw [mapGet_initMap_eq l hnodup k] at h
    cases hf : findById l k with
    | none => rw [hf] at h; cases h
    | some c =>
      rw [hf] at h
      injection h with h
      subst h
      rfl
  · intro j nd k hj hk
    rw [mapGet_initMap_eq l hnodup j] at hj
    cases hf : findById l j with
    | none => rw [hf] at hj; cases hj
    | some c =>
      rw [hf] at hj
      injection hj with hj
      subst hj
      cases hk
  · intro k hk
    cases hk
  · intro k nd hrp h
    rw [mapGet_initMap_eq l hnodup k] at h
    cases hf : findById l k with
    | none => rw [hf] at h; cases h
    | some c =>
      rw [hf] at h
      injection h with h
      subst h
      rfl

theorem buildInv_step (l : List Comment)
    (hnodup : (l.map (fun c => c.id)).Nodup) {c : Comment} (hc : c ∈ l)
    {st st1 : CMap × List String} (hs : step st c = some st1)
    (hinv : BuildInv l st) : BuildInv l st1 := by
  rcases step_cases st st1 c hs with ⟨hroot, hm, hr⟩ |
    ⟨parent, j, ht, hp, hm, hr, hj⟩
  · have hrpnone : resolvedParent l c.id = none := by
      rcases hroot with hfal | hunres
      · exact resolvedParent_eq_none_falsy (findById_self hnodup hc) hfal
      · refine resolvedParent_eq_none_unres (findById_self hnodup hc) ?_
        have hkk := hinv.keys (c.parent_id.getD "")
        rw [hunres] at hkk
        cases hx : findById l (c.parent_id.getD "") with
        | none => rfl
        | some d => rw [hx] at hkk; simp at hkk
    refine ⟨?_, ?_, ?_, ?_, ?_⟩
    · intro k; rw [hm]; exact hinv.keys k
    · intro k nd h; rw [hm] at h; exact hinv.node_comment k nd h
    · intro j nd k hjm hk; rw [hm] at hjm
      exact hinv.replies_parent j nd k hjm hk
    · intro k hk
      rw [hr] at hk
      rcases List.mem_append.mp hk with hk | hk
      · exact hinv.roots_unparented k hk
      · have hke : k = c.id := by simpa using hk
        subst hke
        refine ⟨hrpnone, ?_⟩
        rw [findById_self hnodup hc]
        rfl
    · intro k nd hrp h; rw [hm] at h
      exact hinv.unparented_depth0 k nd hrp h
  · have hfc : findById l c.id = some c := findById_self hnodup hc
    have hpidsome : (findById l (c.parent_id.getD "")).isSome = true := by
      have hkk := hinv.keys (c.parent_id.getD "")
      rw [hp] at hkk
      exact hkk.symm
    have hrpc : resolvedParent l c.id = some (c.parent_id.getD "") :=
      resolvedParent_eq_some hfc ht hpidsome
    have hrpj : resolvedParent l c.id = some j ∨
        ∃ p, resolvedParent l c.id = some p ∧ resolvedParent l p = some j := by
      rcases hj with hjeq | ⟨_, ht2, hjeq, hjs⟩
      · subst hjeq; exact Or.inl hrpc
      · refine Or.inr ⟨c.parent_id.getD "", hrpc, ?_⟩
        subst hjeq
        have hfp : findById l (c.parent_id.getD "") = some parent.comment :=
          hinv.node_comment _ parent hp
        refine resolvedParent_eq_some hfp ht2 ?_
        have hkk := hinv.keys (parent.comment.parent_id.getD "")
        rw [← hkk]
        exact hjs
    refine ⟨?_, ?_, ?_, ?_, ?_⟩
    · intro k
      rw [hm, pushReply, setDepth, mapGet_isSome_updateNode,
        mapGet_isSome_updateNode]
      exact hinv.keys k
    · intro k nd h
      rw [hm, pushReply, setDepth] at h
      rcases mapGet_updateNode_rev h with ⟨hkj, nd1, h1, hnd⟩ | ⟨hkj, h1⟩
      · subst hnd
        rcases mapGet_updateNode_rev h1 with ⟨hkc, nd0, h0, hnd0⟩ | ⟨hkc, h0⟩
        · subst hnd0
          exact hinv.node_comment k nd0 h0
        · exact hinv.node_comment k nd1 h0
      · rcases mapGet_updateNode_rev h1 with ⟨hkc, nd0, h0, hnd0⟩ | ⟨hkc2, h0⟩
        · subst hnd0
          exact hinv.node_comment k nd0 h0
        · exact hinv.node_comment k nd h0
    · intro j0 nd k hjm hk
      rw [hm, pushReply, setDepth] at hjm
      rcases mapGet_updateNode_rev hjm with ⟨hj0, nd1, h1, hnd⟩ | ⟨hj0, h1⟩
      · subst hnd
        subst hj0
        rcases List.mem_append.mp hk with hk1 | hk1
        · rcases mapGet_updateNode_rev h1 with ⟨hjc, nd0, h0, hnd0⟩ | ⟨hjc, h0⟩
          · subst hnd0
            exact hinv.replies_parent j0 nd0 k h0 hk1
          · exact hinv.replies_parent j0 nd1 k h0 hk1
        · have hke : k = c.id := by simpa using hk1
          subst hke
          exact hrpj
      · rcases mapGet_updateNode_rev h1 with ⟨hjc, nd0, h0, hnd0⟩ | ⟨hjc, h0⟩
        · subst hnd0
          exact hinv.replies_parent j0 nd0 k h0 hk
        · exact hinv.replies_parent j0 nd k h0 hk
    · intro k hk
      rw [hr] at hk
      exact hinv.roots_unparented k hk
    · intro k nd hrp h
      rw [hm, pushReply, setDepth] at h
      rcases mapGet_updateNode_rev h with ⟨hkj, nd1, h1, hnd⟩ | ⟨hkj, h1⟩
      · subst hnd
        rcases mapGet_updateNode_rev h1 with ⟨hkc, nd0, h0, hnd0⟩ | ⟨hkc, h0⟩
        · exfalso
          rw [hkc, hrpc] at hrp
          cases hrp
        · exact hinv.unparented_depth0 k nd1 hrp h0
      · rcases mapGet_updateNode_rev h1 with ⟨hkc, nd0, h0, hnd0⟩ | ⟨hkc, h0⟩
        · exfalso
          rw [hkc, hrpc] at hrp
          cases hrp
        · exact hinv.unparented_depth0 k nd hrp h0

theorem inContainer_step {c : Comment} {st st1 : CMap × List String}
    (hs : step st c = some st1) {k : String} (h : InContainer st k) :
    InContainer st1 k := by
  rcases step_cases st st1 c hs with ⟨_, hm, hr⟩ | ⟨parent, j, _, _, hm, hr, _⟩
  · rcases h with h | ⟨j0, nd, hj, hk⟩
    · exact Or.inl (by rw [hr]; exact List.mem_append_left _ h)
    · exact Or.inr ⟨j0, nd, by rw [hm]; exact hj, hk⟩
  · rcases h with h | ⟨j0, nd, hj, hk⟩
    · exact Or.inl (by rw [hr]; exact h)
    · obtain ⟨nd1, h1, hk1⟩ := inReplies_updateNode c.id
        (fun nd => { nd with depth := min (parent.depth + 1) 2 })
        (fun nd x hx => hx) hj hk
      obtain ⟨nd2, h2, hk2⟩ := inReplies_updateNode j
        (fun nd => { nd with replies := nd.replies ++ [c.id] })
        (fun nd => List.subset_append_left _ _) h1 hk1
      exact Or.inr ⟨j0, nd2, by rw [hm, pushReply, setDepth]; exact h2, hk2⟩

theorem step_self_container {c : Comment} {st st1 : CMap × List String}
    (hs : step st c = some st1) : InContainer st1 c.id := by
  rcases step_cases st st1 c hs with ⟨_, _, hr⟩ | ⟨parent, j, _, hp, hm, _, hj⟩
  · exact Or.inl (by rw [hr]; simp)
  · have hjsome : (mapGet st.1 j).isSome = true := by
      rcases hj with hjeq | ⟨_, _, _, hjs⟩
      · subst hjeq; rw [hp]; rfl
      · exact hjs
    have hm1some : (mapGet (setDepth st.1 c.id (min (parent.depth + 1) 2))
        j).isSome = true := by
      rw [setDepth, mapGet_isSome_updateNode]
      exact hjsome
    obtain ⟨nd', h1, h2⟩ := pushReply_self_mem c.id hm1some
    exact Or.inr ⟨j, nd', by rw [hm]; exact h1, h2⟩

theorem buildInv_pass2 (l : List Comment)
    (hnodup : (l.map (fun c => c.id)).Nodup) :
    ∀ (cs : List Comment) (st st1 : CMap × List String),
      (∀ c ∈ cs, c ∈ l) → pass2 cs st = some st1 → BuildInv l st →
      BuildInv l st1 ∧ (∀ k, InContainer st k → InContainer st1 k) ∧
        (∀ c ∈ cs, InContainer st1 c.id) := by
  intro cs
  induction cs with
  | nil =>
    intro st st1 _ hp hinv
    simp only [pass2] at hp
    injection hp with hp
    subst hp
    exact ⟨hinv, fun k h => h, fun c hc => absurd hc (List.not_mem_nil c)⟩
  | cons c cs ih =>
    intro st st1 hmem hp hinv
    simp only [pass2] at hp
    cases hstep : step st c with
    | none => rw [hstep] at hp; cases hp
    | some st2 =>
      rw [hstep] at hp
      have hinv2 := buildInv_step l hnodup (hmem c (List.mem_cons_self c cs))
        hstep hinv
      obtain ⟨hinv3, hmono, hall⟩ := ih st2 st1
        (fun d hd => hmem d (List.mem_cons_of_mem c hd)) hp hinv2
      refine ⟨hinv3, fun k h => hmono k (inContainer_step hstep h), ?_⟩
      intro d hd
      rcases List.mem_cons.mp hd with hdc | hdc
      · subst hdc
        exact hmono _ (step_self_container hstep)
      · exact hall d hdc

theorem buildPass2_invariant (l : List Comment)
    (hnodup : (l.map (fun c => c.id)).Nodup) {m : CMap} {roots : List String}
    (hb : buildPass2 l = some (m, roots)) :
    BuildInv l (m, roots) ∧ ∀ c ∈ l, InContainer (m, roots) c.id := by
  have h := buildInv_pass2 l hnodup l (initMap l, []) (m, roots)
    (fun c hc => hc) hb (buildInv_init l hnodup)
  exact ⟨h.1, h.2.2⟩

/-! ### Accounting lemmas for the materialiser -/

/-- Canonical elimination of a successful `matOne`. -/
theorem matOne_some_elim {m : CMap} {fuel : Nat} {avail : List String}
    {k : String} {t : CTree} {av1 : List String}
    (h : matOne m fuel avail k = some (t, av1)) :
    ∃ fuel1 nd, fuel = fuel1 + 1 ∧ k ∈ avail ∧ mapGet m k = some nd ∧
      t = CTree.node nd.comment nd.depth
        (matMany m fuel1 (avail.erase k) nd.replies).1 ∧
      av1 = (matMany m fuel1 (avail.erase k) nd.replies).2 := by
  cases fuel with
  | zero => simp [matOne] at h
  | succ fuel1 =>
    simp only [matOne] at h
    split at h
    · cases hg : mapGet m k with
      | none => rw [hg] at h; cases h
      | some nd =>
        rw [hg] at h
        injection h with h
        exact ⟨fuel1, nd, rfl, by assumption, rfl,
          congrArg Prod.fst h.symm, congrArg Prod.snd h.symm⟩
    · cases h

/-- Ids flattened out of a materialisation, together with the returned
availability list, are a permutation of the availability list that was
supplied: every visit consumes exactly the ids it emits. -/
theorem mat_perm (m : CMap)
    (hid : ∀ k nd, mapGet m k = some nd → nd.comment.id = k) :
    ∀ fuel : Nat,
    (∀ avail k t av1, matOne m fuel avail k = some (t, av1) →
      (flattenTree t ++ av1).Perm avail) ∧
    (∀ avail ks, (flattenForest (matMany m fuel avail ks).1 ++
      (matMany m fuel avail ks).2).Perm avail) := by
  intro fuel
  induction fuel with
  | zero =>
    constructor
    · intro avail k t av1 h
      simp [matOne] at h
    · intro avail ks
      induction ks with
      | nil => simp [matMany, flattenForest]
      | cons k ks ih => simp [matMany, matOne, flattenForest, ih]
  | succ fuel ih =>
    have hone : ∀ avail k t av1, matOne m (fuel + 1) avail k = some (t, av1) →
        (flattenTree t ++ av1).Perm avail := by
      intro avail k t av1 h
      simp only [matOne] at h
      split at h
      · rename_i hmem
        cases hg : mapGet m k with
        | none => rw [hg] at h; cases h
        | some nd =>
          rw [hg] at h
          injection h with h
          have ht : t = CTree.node nd.comment nd.depth
              (matMany m fuel (avail.erase k) nd.replies).1 :=
            congrArg Prod.fst h.symm
          have hav : av1 = (matMany m fuel (avail.erase k) nd.replies).2 :=
            congrArg Prod.snd h.symm
          subst ht
          subst hav
          have hflat : flattenTree (CTree.node nd.comment nd.depth
              (matMany m fuel (avail.erase k) nd.replies).1) =
              k :: flattenForest (matMany m fuel (avail.erase k) nd.replies).1 := by
            rw [flattenTree, hid k nd hg]
          rw [hflat]
          have hperm := ih.2 (avail.erase k) nd.replies
          refine List.Perm.trans ?_ (List.perm_cons_erase hmem).symm
          simpa using hperm.cons k
      · cases h
    refine ⟨hone, ?_⟩
    intro avail ks
    induction ks generalizing avail with
    | nil => simp [matMany, flattenForest]
    | cons k ks ihk =>
      cases h : matOne m (fuel + 1) avail k with
      | none =>
        simp only [matMany, h]
        exact ihk avail
      | some t_av =>
        obtain ⟨t, av1⟩ := t_av
        simp only [matMany, h, flattenForest]
        have h1 := hone avail k t av1 h
        have h2 := ihk av1
        have h3 := (h2.append_left (flattenTree t)).trans h1
        simpa [List.append_assoc] using h3

theorem matMany_final_mem (m : CMap)
    (hid : ∀ k nd, mapGet m k = some nd → nd.comment.id = k)
    (fuel : Nat) (avail ks : List String) {x : String}
    (h : x ∈ (matMany m fuel avail ks).2) : x ∈ avail :=
  ((mat_perm m hid fuel).2 avail ks).mem_iff.mp (List.mem_append_right _ h)

theorem matMany_flatten_mem (m : CMap)
    (hid : ∀ k nd, mapGet m k = some nd → nd.comment.id = k)
    (fuel : Nat) (avail ks : List String) {x : String}
    (h : x ∈ flattenForest (matMany m fuel avail ks).1) : x ∈ avail :=
  ((mat_perm m hid fuel).2 avail ks).mem_iff.mp (List.mem_append_left _ h)

theorem matMany_split_nodup (m : CMap)
    (hid : ∀ k nd, mapGet m k = some nd → nd.comment.id = k)
    (fuel : Nat) (avail ks : List String) (hnd : avail.Nodup) :
    (flattenForest (matMany m fuel avail ks).1 ++
      (matMany m fuel avail ks).2).Nodup :=
  ((mat_perm m hid fuel).2 avail ks).symm.nodup hnd

/-- An id on the availability list that is not flattened out stays on the
returned availability list. -/
theorem matMany_stays (m : CMap)
    (hid : ∀ k nd, mapGet m k = some nd → nd.comment.id = k)
    (fuel : Nat) (avail ks : List String) {x : String} (hx : x ∈ avail)
    (hnf : x ∉ flattenForest (matMany m fuel avail ks).1) :
    x ∈ (matMany m fuel avail ks).2 := by
  have := ((mat_perm m hid fuel).2 avail ks).mem_iff.mpr hx
  rcases List.mem_append.mp this with h | h
  · exact absurd h hnf
  · exact h

/-- Every id of the processed list whose node exists is consumed from the
availability list, provided the fuel exceeds its length. -/
theorem matMany_consumes (m : CMap)
    (hid : ∀ k nd, mapGet m k = some nd → nd.comment.id = k) :
    ∀ (fuel : Nat) (avail ks : List String) (k : String),
      avail.Nodup → avail.length < fuel → k ∈ ks →
      (mapGet m k).isSome = true → k ∉ (matMany m fuel avail ks).2 := by
  intro fuel avail ks
  induction ks generalizing avail with
  | nil => intro k _ _ hk; cases hk
  | cons k0 ks ih =>
    intro k hnd hlen hk hsome
    cases hfuel : fuel with
    | zero => omega
    | succ fuel1 =>
      subst hfuel
      cases h : matOne m (fuel1 + 1) avail k0 with
      | none =>
        simp only [matMany, h]
        rcases List.mem_cons.mp hk with hke | hke
        · subst hke
          have hknot : k ∉ avail := by
            intro hmem
            simp only [matOne, if_pos hmem] at h
            cases hg : mapGet m k with
            | none => rw [hg] at hsome; cases hsome
            | some nd => rw [hg] at h; cases h
          intro hfin
          exact hknot (matMany_final_mem m hid _ _ _ hfin)
        · exact ih avail k hnd hlen hke hsome
      | some t_av =>
        obtain ⟨t, av1⟩ := t_av
        simp only [matMany, h]
        have hperm1 := (mat_perm m hid (fuel1 + 1)).1 avail k0 t av1 h
        have hnd1 : av1.Nodup := (List.Nodup.of_append_right (hperm1.symm.nodup hnd))
        have hlen1 : av1.length < fuel1 + 1 := by
          have := hperm1.length_eq
          simp only [List.length_append] at this
          omega
        rcases List.mem_cons.mp hk with hke | hke
        · subst hke
          obtain ⟨fuel2, nd, _, hkmem, hg, ht, hav⟩ := matOne_some_elim h
          have hkflat : k ∈ flattenTree t := by
            subst ht
            rw [flattenTree, hid k nd hg]
            exact List.mem_cons_self _ _
          have hsplit := hperm1.symm.nodup hnd
          have hdisj := List.disjoint_of_nodup_append hsplit
          intro hfin
          exact hdisj hkflat (matMany_final_mem m hid _ _ _ hfin)
        · exact ih av1 k hnd1 hlen1 hke hsome

/-- Every id flattened out of a materialisation is either one of the
processed ids or a member of some node's replies array. -/
theorem mat_provenance (m : CMap)
    (hid : ∀ k nd, mapGet m k = some nd → nd.comment.id = k) :
    ∀ fuel : Nat,
    (∀ avail k t av1, matOne m fuel avail k = some (t, av1) →
      ∀ x ∈ flattenTree t,
        x = k ∨ ∃ j nd, mapGet m j = some nd ∧ x ∈ nd.replies) ∧
    (∀ avail ks, ∀ x ∈ flattenForest (matMany m fuel avail ks).1,
      x ∈ ks ∨ ∃ j nd, mapGet m j = some nd ∧ x ∈ nd.replies) := by
  intro fuel
  induction fuel with
  | zero =>
    constructor
    · intro avail k t av1 h
      simp [matOne] at h
    · intro avail ks
      induction ks with
      | nil => intro x hx; simp [matMany, flattenForest] at hx
      | cons k ks ih =>
        intro x hx
        simp only [matMany, matOne] at hx
        rcases ih x hx with h | h
        · exact Or.inl (List.mem_cons_of_mem _ h)
        · exact Or.inr h
  | succ fuel ih =>
    have hone : ∀ avail k t av1, matOne m (fuel + 1) avail k = some (t, av1) →
        ∀ x ∈ flattenTree t,
          x = k ∨ ∃ j nd, mapGet m j = some nd ∧ x ∈ nd.replies := by
      intro avail k t av1 h x hx
      obtain ⟨fuel2, nd, hfeq, hkmem, hg, ht, hav⟩ := matOne_some_elim h
      injection hfeq with hfeq
      subst hfeq
      subst ht
      rw [flattenTree, hid k nd hg] at hx
      rcases List.mem_cons.mp hx with hxe | hxe
      · exact Or.inl hxe
      · rcases ih.2 (avail.erase k) nd.replies x hxe with hr | hr
        · exact Or.inr ⟨k, nd, hg, hr⟩
        · exact Or.inr hr
    refine ⟨hone, ?_⟩
    intro avail ks
    induction ks generalizing avail with
    | nil => intro x hx; simp [matMany, flattenForest] at hx
    | cons k ks ihk =>
      intro x hx
      cases h : matOne m (fuel + 1) avail k with
      | none =>
        rw [matMany, h] at hx
        rcases ihk avail x hx with hr | hr
        · exact Or.inl (List.mem_cons_of_mem _ hr)
        · exact Or.inr hr
      | some t_av =>
        obtain ⟨t, av1⟩ := t_av
        rw [matMany, h] at hx
        simp only [flattenForest] at hx
        rcases List.mem_append.mp hx with hx1 | hx1
        · rcases hone avail k t av1 h x hx1 with hr | hr
          · exact Or.inl (hr ▸ List.mem_cons_self _ _)
          · exact Or.inr hr
        · rcases ihk av1 x hx1 with hr | hr
          · exact Or.inl (List.mem_cons_of_mem _ hr)
          · exact Or.inr hr

/-- Once a node has been materialised, each of its replies (whose node
exists) has been consumed from the availability list. -/
theorem mat_children_consumed (m : CMap)
    (hid : ∀ k nd, mapGet m k = some nd → nd.comment.id = k) :
    ∀ fuel : Nat,
    (∀ avail k t av1, avail.Nodup → avail.length < fuel →
      matOne m fuel avail k = some (t, av1) →
      ∀ j ∈ flattenTree t, ∀ nd, mapGet m j = some nd →
        ∀ x ∈ nd.replies, (mapGet m x).isSome = true → x ∉ av1) ∧
    (∀ avail ks, avail.Nodup → avail.length < fuel →
      ∀ j ∈ flattenForest (matMany m fuel avail ks).1,
        ∀ nd, mapGet m j = some nd →
        ∀ x ∈ nd.replies, (mapGet m x).isSome = true →
          x ∉ (matMany m fuel avail ks).2) := by
  intro fuel
  induction fuel with
  | zero =>
    constructor
    · intro avail k t av1 _ hlen
      omega
    · intro avail ks _ hlen
      omega
  | succ fuel ih =>
    have hone : ∀ avail k t av1, avail.Nodup → avail.length < fuel + 1 →
        matOne m (fuel + 1) avail k = some (t, av1) →
        ∀ j ∈ flattenTree t, ∀ nd, mapGet m j = some nd →
          ∀ x ∈ nd.replies, (mapGet m x).isSome = true → x ∉ av1 := by
      intro avail k t av1 hnd hlen h j hj nd hjg x hx hxs
      obtain ⟨fuel2, nd0, hfeq, hkmem, hg, ht, hav⟩ := matOne_some_elim h
      injection hfeq with hfeq
      subst hfeq
      subst ht
      subst hav
      have herase_len : (avail.erase k).length < fuel := by
        rw [List.length_erase_of_mem hkmem]
        have hpos : 0 < avail.length := List.length_pos_of_mem hkmem
        omega
      have herase_nd : (avail.erase k).Nodup :=
        hnd.sublist (List.erase_sublist k avail)
      rw [flattenTree, hid k nd0 hg] at hj
      rcases List.mem_cons.mp hj with hje | hje
      · subst hje
        have hnd_eq : nd = nd0 := by
          rw [hjg] at hg
          injection hg
        subst hnd_eq
        exact matMany_consumes m hid fuel (avail.erase j) nd.replies x
          herase_nd herase_len hx hxs
      · exact ih.2 (avail.erase k) nd0.replies herase_nd herase_len j hje nd
          hjg x hx hxs
    refine ⟨hone, ?_⟩
    intro avail ks hnd hlen
    induction ks generalizing avail with
    | nil =>
      intro j hj
      simp [matMany, flattenForest] at hj
    | cons k ks ihk =>
      intro j hj nd hjg x hx hxs
      cases h : matOne m (fuel + 1) avail k with
      | none =>
        rw [matMany, h] at hj ⊢
        exact ihk avail hnd hlen j hj nd hjg x hx hxs
      | some t_av =>
        obtain ⟨t, av1⟩ := t_av
        have hperm1 := (mat_perm m hid (fuel + 1)).1 avail k t av1 h
        have hnd1 : av1.Nodup :=
          List.Nodup.of_append_right (hperm1.symm.nodup hnd)
        have hlen1 : av1.length < fuel + 1 := by
          have := hperm1.length_eq
          simp only [List.length_append] at this
          omega
        rw [matMany, h] at hj ⊢
        simp only [flattenForest] at hj
        rcases List.mem_append.mp hj with hj1 | hj1
        · have hxout : x ∉ av1 := hone avail k t av1 hnd hlen h j hj1 nd hjg x hx hxs
          intro hfin
          exact hxout (matMany_final_mem m hid _ _ _ hfin)
        · exact ihk av1 hnd1 hlen1 j hj1 nd hjg x hx hxs

/-- A processed id that sits in no replies array is materialised as a
top-level tree carrying its node's record and depth. -/
theorem matMany_root_tree (m : CMap)
    (hid : ∀ k nd, mapGet m k = some nd → nd.comment.id = k) :
    ∀ (fuel : Nat) (avail ks : List String) (r : String) (nd : CNode),
      avail.Nodup → avail.length < fuel → r ∈ ks → r ∈ avail →
      mapGet m r = some nd →
      (∀ j ndj, mapGet m j = some ndj → r ∉ ndj.replies) →
      ∃ ch, CTree.node nd.comment nd.depth ch ∈ (matMany m fuel avail ks).1 := by
  intro fuel avail ks
  induction ks generalizing avail with
  | nil => intro r nd _ _ hr; cases hr
  | cons k0 ks ih =>
    intro r nd hnd hlen hr hrav hrg hnorep
    by_cases hrk : r = k0
    · subst hrk
      cases hfuel : fuel with
      | zero => omega
      | succ fuel1 =>
        subst hfuel
        have hone : matOne m (fuel1 + 1) avail r =
            some (CTree.node nd.comment nd.depth
              (matMany m fuel1 (avail.erase r) nd.replies).1,
              (matMany m fuel1 (avail.erase r) nd.replies).2) := by
          simp only [matOne, if_pos hrav, hrg]
        rw [matMany, hone]
        exact ⟨_, List.mem_cons_self _ _⟩
    · cases h : matOne m fuel avail k0 with
      | none =>
        rw [matMany, h]
        exact ih avail r nd hnd hlen (List.mem_of_ne_of_mem hrk hr) hrav hrg hnorep
      | some t_av =>
        obtain ⟨t, av1⟩ := t_av
        have hperm1 := (mat_perm m hid fuel).1 avail k0 t av1 h
        have hnd1 : av1.Nodup :=
          List.Nodup.of_append_right (hperm1.symm.nodup hnd)
        have hlen1 : av1.length < fuel := by
          have := hperm1.length_eq
          simp only [List.length_append] at this
          omega
        have hrflat : r ∉ flattenTree t := by
          intro hmem
          rcases (mat_provenance m hid fuel).1 avail k0 t av1 h r hmem with
            hre | ⟨j, ndj, hjg, hrep⟩
          · exact hrk hre
          · exact hnorep j ndj hjg hrep
        have hrav1 : r ∈ av1 := by
          have := hperm1.mem_iff.mpr hrav
          rcases List.mem_append.mp this with hm | hm
          · exact absurd hm hrflat
          · exact hm
        obtain ⟨ch, hch⟩ := ih av1 r nd hnd1 hlen1
          (List.mem_of_ne_of_mem hrk hr) hrav1 hrg hnorep
        rw [matMany, h]
        exact ⟨ch, List.mem_cons_of_mem _ hch⟩

/-! ### Orphans surface as roots (claim C6, amended) -/

/-- Claim C6 amended with unique identifiers: every record whose
`parent_id` is null/absent, or whose `parent_id` matches no record id in
the input, appears in the forest as a root node with depth 0 carrying the
record; it is not dropped.  (Without unique identifiers the claim fails,
see the counterexample.) -/
theorem claim_C6_amended (l : List Comment)
    (hnodup : (l.map (fun c => c.id)).Nodup)
    (c : Comment) (hc : c ∈ l)
    (horphan : c.parent_id = none ∨ ∀ d ∈ l, some d.id ≠ c.parent_id) :
    ∃ ch, CTree.node c 0 ch ∈ organizeComments l := by
  obtain ⟨m, roots, hb, hg⟩ := organizeGraph_eq l
  obtain ⟨hinv, hcont⟩ := buildPass2_invariant l hnodup hb
  have hfc : findById l c.id = some c := findById_self hnodup hc
  have hrp : resolvedParent l c.id = none := by
    rcases horphan with h0 | h0
    · exact resolvedParent_eq_none_falsy hfc (by rw [h0]; rfl)
    · by_cases ht : isTruthy c.parent_id = true
      · refine resolvedParent_eq_none_unres hfc ?_
        rw [findById_eq_none]
        intro d hd he
        cases hcp : c.parent_id with
        | none => rw [hcp] at ht; cases ht
        | some s =>
          have hne := h0 d hd
          rw [hcp] at hne
          rw [hcp] at he
          simp only [Option.getD_some] at he
          exact hne (by rw [he])
      · refine resolvedParent_eq_none_falsy hfc ?_
        cases htt : isTruthy c.parent_id
        · rfl
        · exact absurd htt ht
  have hcroot : c.id ∈ roots := by
    rcases hcont c hc with h | ⟨j, nd, hjg, hmem⟩
    · exact h
    · exfalso
      rcases hinv.replies_parent j nd c.id hjg hmem with hr | ⟨p, hr, _⟩
      · rw [hrp] at hr; cases hr
      · rw [hrp] at hr; cases hr
  have hisSome : (mapGet m c.id).isSome = true := by
    rw [hinv.keys c.id, hfc]
    rfl
  obtain ⟨nd, hnd⟩ : ∃ nd, mapGet m c.id = some nd := by
    cases hx : mapGet m c.id with
    | none => rw [hx] at hisSome; cases hisSome
    | some nd => exact ⟨nd, rfl⟩
  have hndc : nd.comment = c := by
    have h1 := hinv.node_comment c.id nd hnd
    rw [hfc] at h1
    injection h1 with h1
    exact h1.symm
  have hndd : nd.depth = 0 := hinv.unparented_depth0 c.id nd hrp hnd
  have hnorep : ∀ j ndj, mapGet m j = some ndj → c.id ∉ ndj.replies := by
    intro j ndj hjg hmem
    rcases hinv.replies_parent j ndj c.id hjg hmem with hr | ⟨p, hr, _⟩
    · rw [hrp] at hr; cases hr
    · rw [hrp] at hr; cases hr
  have hsim : MapSim m (sortPhase m roots).2 := mapSim_sortPhase m roots
  have hid2 : ∀ k ndk, mapGet (sortPhase m roots).2 k = some ndk →
      ndk.comment.id = k := by
    intro k ndk hk
    obtain ⟨nd0, h0, hcom, _, _⟩ := hsim.lookup hk
    rw [hcom]
    exact (findById_some_mem (hinv.node_comment k nd0 h0)).2
  obtain ⟨nd2, hnd2, hcom2, hdep2, hrep2⟩ := hsim.lookup_fwd hnd
  have hnorep2 : ∀ j ndj, mapGet (sortPhase m roots).2 j = some ndj →
      c.id ∉ ndj.replies := by
    intro j ndj hjg hmem
    obtain ⟨nd0, h0, _, _, hperm⟩ := hsim.lookup hjg
    exact hnorep j nd0 h0 (hperm.mem_iff.mp hmem)
  have hroots2 : c.id ∈ (sortPhase m roots).1 :=
    (sortPhase_roots_perm m roots).mem_iff.mpr hcroot
  have havmem : c.id ∈ l.map (fun c => c.id) :=
    List.mem_map_of_mem (fun c => c.id) hc
  have hlen : (l.map (fun c => c.id)).length < l.length + 1 := by simp
  obtain ⟨ch, hch⟩ := matMany_root_tree (sortPhase m roots).2 hid2
    (l.length + 1) (l.map (fun c => c.id)) (sortPhase m roots).1 c.id nd2
    hnodup hlen hroots2 havmem hnd2 hnorep2
  refine ⟨ch, ?_⟩
  unfold organizeComments
  rw [hg]
  have he1 : nd2.comment = c := by rw [hcom2, hndc]
  have he2 : nd2.depth = 0 := by rw [hdep2, hndd]
  rw [← he1, ← he2]
  exact hch

/-- Witness for the amended claim C6 at the spec's own orphan example:
`{id:5, parentId:"missing", createdAt:7}` surfaces as a root at depth 0. -/
theorem claim_C6_amended_witness :
    ∃ ch, CTree.node
        { id := "5", parent_id := some "missing", created_at := 7 } 0 ch ∈
      organizeComments
        [{ id := "5", parent_id := some "missing", created_at := 7 }] :=
  claim_C6_amended
    [{ id := "5", parent_id := some "missing", created_at := 7 }]
    (by decide)
    { id := "5", parent_id := some "missing", created_at := 7 }
    (by decide)
    (Or.inr (by decide))

/-! ### Parent-chain ranks (for the counting claim C2) -/

theorem parentChainEnds_mono (l : List Comment) :
    ∀ (f f' : Nat) (k : String), f ≤ f' → parentChainEnds l f k = true →
      parentChainEnds l f' k = true ∧
        parentRank l f' k = parentRank l f k := by
  intro f
  induction f with
  | zero =>
    intro f' k _ h
    have hnone : resolvedParent l k = none := by
      cases hx : resolvedParent l k with
      | none => rfl
      | some p =>
        rw [parentChainEnds, hx] at h
        cases h
    cases f' with
    | zero => exact ⟨h, rfl⟩
    | succ g =>
      constructor
      · simp [parentChainEnds, hnone]
      · simp [parentRank, hnone]
  | succ f ih =>
    intro f' k hle h
    cases hx : resolvedParent l k with
    | none =>
      constructor
      · cases f' with
        | zero => simp [parentChainEnds, hx]
        | succ g => simp [parentChainEnds, hx]
      · cases f' with
        | zero => simp [parentRank, hx]
        | succ g => simp [parentRank, hx]
    | some p =>
      rw [parentChainEnds, hx] at h
      cases f' with
      | zero => omega
      | succ g =>
        obtain ⟨h1, h2⟩ := ih g p (by omega) h
        constructor
        · rw [parentChainEnds, hx]
          exact h1
        · simp [parentRank, hx, h2]

theorem parentRank_lt (l : List Comment) {k p : String} {n : Nat}
    (hend : parentChainEnds l n k = true)
    (hp : resolvedParent l k = some p) :
    parentChainEnds l n p = true ∧
      parentRank l n p < parentRank l n k := by
  cases n with
  | zero =>
    rw [parentChainEnds, hp] at hend
    cases hend
  | succ g =>
    have h1 : parentChainEnds l g p = true := by
      rw [parentChainEnds, hp] at hend
      exact hend
    obtain ⟨h2, h3⟩ := parentChainEnds_mono l g (g + 1) p (by omega) h1
    refine ⟨h2, ?_⟩
    have h4 : parentRank l (g + 1) k = parentRank l g p + 1 := by
      rw [parentRank, hp]
    omega

/-! ### Node counts are flatten lengths -/

theorem mat_count (m : CMap) : ∀ fuel : Nat,
    (∀ avail k t av1, matOne m fuel avail k = some (t, av1) →
      countTree t = (flattenTree t).length) ∧
    (∀ avail ks, countForest (matMany m fuel avail ks).1 =
      (flattenForest (matMany m fuel avail ks).1).length) := by
  intro fuel
  induction fuel with
  | zero =>
    constructor
    · intro avail k t av1 h
      simp [matOne] at h
    · intro avail ks
      induction ks with
      | nil => simp [matMany, flattenForest, countForest]
      | cons k ks ih => simp [matMany, matOne, ih]
  | succ fuel ih =>
    have hone : ∀ avail k t av1, matOne m (fuel + 1) avail k = some (t, av1) →
        countTree t = (flattenTree t).length := by
      intro avail k t av1 h
      obtain ⟨fuel2, nd, hfeq, hkmem, hg, ht, hav⟩ := matOne_some_elim h
      injection hfeq with hfeq
      subst hfeq
      subst ht
      rw [countTree, flattenTree]
      simp only [List.length_cons]
      rw [ih.2 (avail.erase k) nd.replies]
      omega
    refine ⟨hone, ?_⟩
    intro avail ks
    induction ks generalizing avail with
    | nil => simp [matMany, flattenForest, countForest]
    | cons k ks ihk =>
      cases h : matOne m (fuel + 1) avail k with
      | none =>
        simp only [matMany, h]
        exact ihk avail
      | some t_av =>
        obtain ⟨t, av1⟩ := t_av
        simp only [matMany, h, countForest, flattenForest, List.length_append]
        rw [hone avail k t av1 h, ihk av1]

/-! ### All records are counted (claim C2, amended) -/

/-- Claim C2 amended: for every input sequence with unique identifiers
whose parent references are acyclic, the total number of nodes in the
forest returned by `organizeComments`, summed recursively over all
replies, equals the number of input records.  (With a parent cycle both
claims fail: the cycle's records are attached to each other and never
reach the root array, see the counterexample.) -/
theorem claim_C2_amended (l : List Comment)
    (hnodup : (l.map (fun c => c.id)).Nodup) (hacyc : Acyclic l) :
    countForest (organizeComments l) = l.length := by
  obtain ⟨m, roots, hb, hg⟩ := organizeGraph_eq l
  obtain ⟨hinv, hcont⟩ := buildPass2_invariant l hnodup hb
  have hsim : MapSim m (sortPhase m roots).2 := mapSim_sortPhase m roots
  have hid2 : ∀ k ndk, mapGet (sortPhase m roots).2 k = some ndk →
      ndk.comment.id = k := by
    intro k ndk hk
    obtain ⟨nd0, h0, hcom, _, _⟩ := hsim.lookup hk
    rw [hcom]
    exact (findById_some_mem (hinv.node_comment k nd0 h0)).2
  have hkeys2 : ∀ k, (mapGet (sortPhase m roots).2 k).isSome =
      (findById l k).isSome := by
    intro k
    rw [← hinv.keys k]
    rcases hsim k with ⟨ha, hb2⟩ | ⟨nd, nd2, ha, hb2, _⟩
    · rw [ha, hb2]
    · rw [ha, hb2]
      rfl
  have hlen : (l.map (fun c => c.id)).length < l.length + 1 := by simp
  -- every id of the input ends up flattened
  have main : ∀ (r : Nat) (c : Comment), c ∈ l →
      parentRank l l.length c.id = r →
      c.id ∈ flattenForest (matMany (sortPhase m roots).2 (l.length + 1)
        (l.map (fun c => c.id)) (sortPhase m roots).1).1 := by
    intro r
    induction r using Nat.strong_induction_on with
    | _ r ih =>
      intro c hc hr
      have hfc : findById l c.id = some c := findById_self hnodup hc
      have hsome2 : (mapGet (sortPhase m roots).2 c.id).isSome = true := by
        rw [hkeys2 c.id, hfc]
        rfl
      have havmem : c.id ∈ l.map (fun c => c.id) :=
        List.mem_map_of_mem (fun c => c.id) hc
      have hflat_or : c.id ∈ flattenForest
            (matMany (sortPhase m roots).2 (l.length + 1)
              (l.map (fun c => c.id)) (sortPhase m roots).1).1 ∨
          c.id ∈ (matMany (sortPhase m roots).2 (l.length + 1)
            (l.map (fun c => c.id)) (sortPhase m roots).1).2 :=
        List.mem_append.mp
          (((mat_perm (sortPhase m roots).2 hid2 (l.length + 1)).2
            (l.map (fun c => c.id)) (sortPhase m roots).1).mem_iff.mpr havmem)
      cases hrp : resolvedParent l c.id with
      | none =>
        have hcroot : c.id ∈ roots := by
          rcases hcont c hc with h | ⟨j, nd, hjg, hmem⟩
          · exact h
          · exfalso
            rcases hinv.replies_parent j nd c.id hjg hmem with hr1 | ⟨p, hr1, _⟩
            · rw [hrp] at hr1; cases hr1
            · rw [hrp] at hr1; cases hr1
        have hroots2 : c.id ∈ (sortPhase m roots).1 :=
          (sortPhase_roots_perm m roots).mem_iff.mpr hcroot
        have hnotfin := matMany_consumes (sortPhase m roots).2 hid2
          (l.length + 1) (l.map (fun c => c.id)) (sortPhase m roots).1 c.id
          hnodup hlen hroots2 hsome2
        rcases hflat_or with h | h
        · exact h
        · exact absurd h hnotfin
      | some p =>
        -- c.id sits in some replies array
        obtain ⟨j, nd, hjg, hmem⟩ : ∃ j nd, mapGet m j = some nd ∧
            c.id ∈ nd.replies := by
          rcases hcont c hc with h | h
          · exfalso
            have := (hinv.roots_unparented c.id h).1
            rw [hrp] at this
            cases this
          · exact h
        have hend : parentChainEnds l l.length c.id = true := hacyc c hc
        -- the container j has smaller rank
        have hjlt : parentChainEnds l l.length j = true ∧
            parentRank l l.length j < parentRank l l.length c.id := by
          rcases hinv.replies_parent j nd c.id hjg hmem with hr1 | ⟨q, hr1, hr2⟩
          · exact parentRank_lt l hend hr1
          · obtain ⟨hq1, hq2⟩ := parentRank_lt l hend hr1
            obtain ⟨hj1, hj2⟩ := parentRank_lt l hq1 hr2
            exact ⟨hj1, by omega⟩
        -- j is the id of a record of l
        obtain ⟨d, hd, hdj⟩ : ∃ d, d ∈ l ∧ d.id = j := by
          have h1 := hinv.node_comment j nd hjg
          obtain ⟨hmem2, hid3⟩ := findById_some_mem h1
          exact ⟨nd.comment, hmem2, hid3⟩
        -- by strong induction, j is flattened
        have hlt : parentRank l l.length j < r := by
          rw [← hr]
          exact hjlt.2
        have hjflat := ih (parentRank l l.length j) hlt d hd (by rw [hdj])
        · -- the node of j in the sorted map still lists c.id
          obtain ⟨nd2, hnd2, _, _, hrep2⟩ := hsim.lookup_fwd hjg
          have hmem2 : c.id ∈ nd2.replies := hrep2.mem_iff.mpr hmem
          rw [hdj] at hjflat
          have hnotfin := (mat_children_consumed (sortPhase m roots).2 hid2
            (l.length + 1)).2 (l.map (fun c => c.id)) (sortPhase m roots).1
            hnodup hlen j hjflat nd2 hnd2 c.id hmem2 hsome2
          rcases hflat_or with h | h
          · exact h
          · exact absurd h hnotfin
  -- assemble the count
  have hall : ∀ c ∈ l, c.id ∈ flattenForest
      (matMany (sortPhase m roots).2 (l.length + 1)
        (l.map (fun c => c.id)) (sortPhase m roots).1).1 :=
    fun c hc => main (parentRank l l.length c.id) c hc rfl
  have hperm := (mat_perm (sortPhase m roots).2 hid2 (l.length + 1)).2
    (l.map (fun c => c.id)) (sortPhase m roots).1
  have hnodup2 := hperm.symm.nodup hnodup
  have hfin_nil : (matMany (sortPhase m roots).2 (l.length + 1)
      (l.map (fun c => c.id)) (sortPhase m roots).1).2 = [] := by
    rw [List.eq_nil_iff_forall_not_mem]
    intro x hx
    have hxav : x ∈ l.map (fun c => c.id) :=
      matMany_final_mem (sortPhase m roots).2 hid2 _ _ _ hx
    obtain ⟨c, hc, hcx⟩ := List.mem_map.mp hxav
    have hxflat : x ∈ flattenForest (matMany (sortPhase m roots).2
        (l.length + 1) (l.map (fun c => c.id)) (sortPhase m roots).1).1 := by
      rw [← hcx]
      exact hall c hc
    exact (List.disjoint_of_nodup_append hnodup2) hxflat hx
  have hlen_eq := hperm.length_eq
  rw [hfin_nil] at hlen_eq
  simp only [List.length_append, List.length_nil, List.length_map] at hlen_eq
  unfold organizeComments
  rw [hg]
  rw [(mat_count (sortPhase m roots).2 (l.length + 1)).2
    (l.map (fun c => c.id)) (sortPhase m roots).1]
  omega

/-- Witness for the amended claim C2 on the three-record chain. -/
theorem claim_C2_amended_witness :
    countForest (organizeComments (chain3 1 2 3)) = (chain3 1 2 3).length :=
  claim_C2_amended (chain3 1 2 3) (by decide) (by unfold Acyclic; decide)

/-! ### The sort phase really sorts (claim C7) -/

theorem insertDesc_mem {m : CMap} {x z : String} {ys : List String}
    (h : z ∈ insertDesc m x ys) : z = x ∨ z ∈ ys := by
  have h1 := (insertDesc_perm m x ys).mem_iff.mp h
  simpa using h1

theorem insertDesc_pairwise (m : CMap) (x : String) (ys : List String)
    (h : PairwiseKey m ys) : PairwiseKey m (insertDesc m x ys) := by
  induction ys with
  | nil => simp [insertDesc, PairwiseKey]
  | cons y ys ih =>
    have h1 := List.pairwise_cons.mp h
    by_cases hc : sortKey m y ≤ sortKey m x
    · rw [insertDesc, if_pos hc]
      refine List.Pairwise.cons ?_ h
      intro z hz
      rcases List.mem_cons.mp hz with rfl | hz
      · exact hc
      · exact Nat.le_trans (h1.1 z hz) hc
    · rw [insertDesc, if_neg hc]
      refine List.Pairwise.cons ?_ (ih h1.2)
      intro z hz
      rcases insertDesc_mem hz with rfl | hz
      · exact Nat.le_of_not_le hc
      · exact h1.1 z hz

theorem sortDesc_pairwise (m : CMap) (l : List String) :
    PairwiseKey m (sortDesc m l) := by
  induction l with
  | nil => simp [sortDesc, PairwiseKey]
  | cons a l ih =>
    simp only [sortDesc, List.foldr_cons] at ih ⊢
    exact insertDesc_pairwise m a _ ih

theorem sortKey_eq_of_mapSim {m mm : CMap} (h : MapSim m mm) (x : String) :
    sortKey mm x = sortKey m x := by
  rcases h x with ⟨ha, hb⟩ | ⟨nd, nd2, ha, hb, hs⟩
  · rw [sortKey, sortKey, ha, hb]
  · rw [sortKey, sortKey, ha, hb]
    simp only [hs.comment_eq]

theorem pairwiseKey_congr {m mm : CMap} (h : MapSim m mm)
    {xs : List String} (hp : PairwiseKey mm xs) : PairwiseKey m xs := by
  refine hp.imp ?_
  intro a b hab
  rwa [sortKey_eq_of_mapSim h, sortKey_eq_of_mapSim h] at hab

theorem sortedReplies_establish {m mm : CMap} (hsim : MapSim m mm)
    (k : String) : SortedReplies m (sortNodeReplies mm k) k := by
  intro nd hnd
  rcases mapGet_updateNode_rev hnd with ⟨_, nd0, h0, hnd0⟩ | ⟨hne, h0⟩
  · subst hnd0
    exact pairwiseKey_congr hsim (sortDesc_pairwise mm nd0.replies)
  · exact absurd rfl hne

theorem sortedReplies_persist {m mm : CMap} (hsim : MapSim m mm)
    {k : String} (j : String) (h : SortedReplies m mm k) :
    SortedReplies m (sortNodeReplies mm j) k := by
  by_cases hkj : k = j
  · subst hkj
    exact sortedReplies_establish hsim k
  · intro nd hnd
    rcases mapGet_updateNode_rev hnd with ⟨hke, _, _, _⟩ | ⟨_, h0⟩
    · exact absurd hke hkj
    · exact h nd h0

theorem foldl_sorts_facts (m : CMap) :
    ∀ (cs : List String) (mm : CMap), MapSim m mm →
      MapSim mm (cs.foldl (fun a c => sortNodeReplies a c) mm) ∧
      (∀ k, SortedReplies m mm k →
        SortedReplies m (cs.foldl (fun a c => sortNodeReplies a c) mm) k) ∧
      (∀ c ∈ cs,
        SortedReplies m (cs.foldl (fun a c => sortNodeReplies a c) mm) c) := by
  intro cs
  induction cs with
  | nil =>
    intro mm hsim
    exact ⟨MapSim.refl mm, fun k h => h,
      fun c hc => absurd hc (List.not_mem_nil c)⟩
  | cons c cs ih =>
    intro mm hsim
    simp only [List.foldl_cons]
    have hsim1 : MapSim m (sortNodeReplies mm c) :=
      hsim.trans (mapSim_sortNodeReplies mm c)
    obtain ⟨hsimf, hpers, hall⟩ := ih (sortNodeReplies mm c) hsim1
    refine ⟨(mapSim_sortNodeReplies mm c).trans hsimf, ?_, ?_⟩
    · intro k hk
      exact hpers k (sortedReplies_persist hsim c hk)
    · intro d hd
      rcases List.mem_cons.mp hd with rfl | hd
      · exact hpers d (sortedReplies_establish hsim d)
      · exact hall d hd

theorem outer_fold_facts (m : CMap) :
    ∀ (rs : List String) (acc : CMap), MapSim m acc →
      MapSim acc (rs.foldl sortRootStep acc) ∧
      (∀ k, SortedReplies m acc k →
        SortedReplies m (rs.foldl sortRootStep acc) k) ∧
      (∀ r ∈ rs, SortedReplies m (rs.foldl sortRootStep acc) r ∧
        (∀ nd, mapGet (rs.foldl sortRootStep acc) r = some nd →
          ∀ c ∈ nd.replies,
            SortedReplies m (rs.foldl sortRootStep acc) c)) := by
  intro rs
  induction rs with
  | nil =>
    intro acc hsim
    exact ⟨MapSim.refl acc, fun k h => h,
      fun r hr => absurd hr (List.not_mem_nil r)⟩
  | cons r rs ih =>
    intro acc hsim
    simp only [List.foldl_cons]
    have hsim1 : MapSim m (sortNodeReplies acc r) :=
      hsim.trans (mapSim_sortNodeReplies acc r)
    obtain ⟨hsim2, hpers2, hall2⟩ := foldl_sorts_facts m
      (childrenOf (sortNodeReplies acc r) r) (sortNodeReplies acc r) hsim1
    have hstep : sortRootStep acc r =
        (childrenOf (sortNodeReplies acc r) r).foldl
          (fun a c => sortNodeReplies a c) (sortNodeReplies acc r) := rfl
    have hsimacc2 : MapSim m (sortRootStep acc r) := by
      rw [hstep]
      exact hsim1.trans hsim2
    obtain ⟨hsimf, hpersf, hallf⟩ := ih (sortRootStep acc r) hsimacc2
    refine ⟨?_, ?_, ?_⟩
    · refine MapSim.trans ?_ hsimf
      rw [hstep]
      exact (mapSim_sortNodeReplies acc r).trans hsim2
    · intro k hk
      refine hpersf k ?_
      rw [hstep]
      exact hpers2 k (sortedReplies_persist hsim r hk)
    · intro r1 hr1
      rcases List.mem_cons.mp hr1 with rfl | hr1
      · constructor
        · refine hpersf r1 ?_
          rw [hstep]
          exact hpers2 r1 (sortedReplies_establish hsim r1)
        · intro nd hnd c hc
          have hsim_1f : MapSim (sortNodeReplies acc r1)
              (rs.foldl sortRootStep (sortRootStep acc r1)) := by
            refine MapSim.trans ?_ hsimf
            rw [hstep]
            exact hsim2
          obtain ⟨nd1, h1, _, _, hperm⟩ := hsim_1f.lookup hnd
          have hcc : c ∈ childrenOf (sortNodeReplies acc r1) r1 := by
            rw [childrenOf, h1]
            exact hperm.mem_iff.mp hc
          refine hpersf c ?_
          rw [hstep]
          exact hall2 c hcc
      · exact hallf r1 hr1

theorem sortPhase_sorted (m : CMap) (roots : List String) :
    PairwiseKey m (sortPhase m roots).1 ∧
    ∀ r ∈ (sortPhase m roots).1,
      SortedReplies m (sortPhase m roots).2 r ∧
      (∀ nd, mapGet (sortPhase m roots).2 r = some nd →
        ∀ c ∈ nd.replies, SortedReplies m (sortPhase m roots).2 c) := by
  constructor
  · exact sortDesc_pairwise m roots
  · exact (outer_fold_facts m (sortDesc m roots) m (MapSim.refl m)).2.2

/-- The timestamps of the trees a materialisation produces form a
sublist of the timestamps of the ids it processes. -/
theorem mat_order (m : CMap) : ∀ (fuel : Nat) (avail ks : List String),
    List.Sublist
      ((matMany m fuel avail ks).1.map (fun t => t.comment.created_at))
      (ks.map (sortKey m)) := by
  intro fuel avail ks
  induction ks generalizing avail with
  | nil => simp [matMany]
  | cons k ks ih =>
    cases h : matOne m fuel avail k with
    | none =>
      rw [matMany, h]
      exact (ih avail).trans (List.sublist_cons_self _ _)
    | some t_av =>
      obtain ⟨t, av1⟩ := t_av
      rw [matMany, h]
      simp only [List.map_cons]
      obtain ⟨fuel2, nd, _, _, hg, ht, _⟩ := matOne_some_elim h
      have hkey : t.comment.created_at = sortKey m k := by
        subst ht
        rw [sortKey, hg]
        rfl
      rw [hkey]
      exact (ih av1).cons₂ (sortKey m k)

/-- Every tree a materialisation produces comes from a successful
`matOne` on one of the processed ids. -/
theorem matMany_trees_from (m : CMap) :
    ∀ (fuel : Nat) (avail ks : List String) (t : CTree),
      t ∈ (matMany m fuel avail ks).1 →
      ∃ k av av1, k ∈ ks ∧ matOne m fuel av k = some (t, av1) := by
  intro fuel avail ks
  induction ks generalizing avail with
  | nil => intro t ht; simp [matMany] at ht
  | cons k ks ih =>
    intro t ht
    cases h : matOne m fuel avail k with
    | none =>
      rw [matMany, h] at ht
      obtain ⟨k1, av, av1, hk1, hm1⟩ := ih avail t ht
      exact ⟨k1, av, av1, List.mem_cons_of_mem _ hk1, hm1⟩
    | some t_av =>
      obtain ⟨t1, av1⟩ := t_av
      rw [matMany, h] at ht
      rcases List.mem_cons.mp ht with rfl | ht
      · exact ⟨k, avail, av1, List.mem_cons_self _ _, h⟩
      · obtain ⟨k1, av, av2, hk1, hm1⟩ := ih av1 t ht
        exact ⟨k1, av, av2, List.mem_cons_of_mem _ hk1, hm1⟩

theorem pairwise_created_of_sublist (m : CMap) {ts : List CTree}
    {ids : List String}
    (hsub : List.Sublist (ts.map (fun t => t.comment.created_at))
      (ids.map (sortKey m)))
    (hp : PairwiseKey m ids) :
    List.Pairwise (fun a b => b.comment.created_at ≤ a.comment.created_at)
      ts := by
  have h1 : List.Pairwise (fun a b => b ≤ a) (ids.map (sortKey m)) := by
    rw [List.pairwise_map]
    exact hp
  have h2 := h1.sublist hsub
  rw [List.pairwise_map] at h2
  exact h2

/-- Claim C7: in the forest returned by `organizeComments`, the root
sequence, every root's replies sequence and every second-level replies
sequence are sorted by `created_at` descending (newest first); the sort
is deterministic (the builder is a function). -/
theorem claim_C7 (l : List Comment) :
    forestSortedTwoLevels (organizeComments l) := by
  obtain ⟨m, roots, hb, hg⟩ := organizeGraph_eq l
  obtain ⟨hroots_sorted, hnodes_sorted⟩ := sortPhase_sorted m roots
  have hsim : MapSim m (sortPhase m roots).2 := mapSim_sortPhase m roots
  have hkeyeq : ∀ x, sortKey (sortPhase m roots).2 x = sortKey m x :=
    sortKey_eq_of_mapSim hsim
  have hpk : ∀ xs, PairwiseKey m xs → PairwiseKey (sortPhase m roots).2 xs := by
    intro xs hp
    refine hp.imp ?_
    intro a b hab
    rwa [hkeyeq, hkeyeq]
  unfold organizeComments
  rw [hg]
  constructor
  · exact pairwise_created_of_sublist (sortPhase m roots).2
      (mat_order (sortPhase m roots).2 (l.length + 1) _ _)
      (hpk _ hroots_sorted)
  · intro t ht
    obtain ⟨r, av, av1, hr, hmat⟩ := matMany_trees_from (sortPhase m roots).2
      (l.length + 1) _ _ t ht
    obtain ⟨fuel2, nd, hfeq, hkmem, hgr, ht1, hav⟩ := matOne_some_elim hmat
    have hrs := hnodes_sorted r hr
    have hrepl_sorted : PairwiseKey m nd.replies := hrs.1 nd hgr
    constructor
    · subst ht1
      simp only [CTree.replies]
      exact pairwise_created_of_sublist (sortPhase m roots).2
        (mat_order (sortPhase m roots).2 fuel2 _ _) (hpk _ hrepl_sorted)
    · intro u hu
      subst ht1
      simp only [CTree.replies] at hu
      obtain ⟨c, av2, av3, hcmem, hmat2⟩ := matMany_trees_from
        (sortPhase m roots).2 fuel2 _ _ u hu
      obtain ⟨fuel3, ndc, _, _, hgc, hu1, _⟩ := matOne_some_elim hmat2
      have hcs : SortedReplies m (sortPhase m roots).2 c :=
        hrs.2 nd hgr c hcmem
      have hcrepl : PairwiseKey m ndc.replies := hcs ndc hgc
      subst hu1
      simp only [CTree.replies]
      exact pairwise_created_of_sublist (sortPhase m roots).2
        (mat_order (sortPhase m roots).2 fuel3 _ _) (hpk _ hcrepl)

/-! ### The builder never reads `is_deleted` (claim C8) -/

theorem scrubComment_id (c : Comment) : (scrubComment c).id = c.id := rfl

theorem scrubComment_parent (c : Comment) :
    (scrubComment c).parent_id = c.parent_id := rfl

theorem scrubNode_depth (nd : CNode) : (scrubNode nd).depth = nd.depth := rfl

theorem scrubNode_replies (nd : CNode) :
    (scrubNode nd).replies = nd.replies := rfl

theorem mapGet_scrubMap (m : CMap) (k : String) :
    mapGet (scrubMap m) k = (mapGet m k).map scrubNode := by
  induction m with
  | nil => rfl
  | cons kv rest ih =>
    obtain ⟨k1, v1⟩ := kv
    simp only [scrubMap, List.map_cons] at ih ⊢
    by_cases hk : k1 = k
    · simp [mapGet, hk]
    · simp only [mapGet, if_neg hk]
      exact ih

theorem mapSet_scrubMap (m : CMap) (k : String) (v : CNode) :
    mapSet (scrubMap m) k (scrubNode v) = scrubMap (mapSet m k v) := by
  induction m with
  | nil => rfl
  | cons kv rest ih =>
    obtain ⟨k1, v1⟩ := kv
    simp only [scrubMap, List.map_cons, mapSet]
    by_cases hk : k1 = k
    · simp [hk]
    · simp only [if_neg hk, List.map_cons]
      refine congrArg (List.cons (k1, scrubNode v1)) ?_
      simpa [scrubMap] using ih

theorem updateNode_scrubMap (m : CMap) (k : String) (f f' : CNode → CNode)
    (hf : ∀ nd, f' (scrubNode nd) = scrubNode (f nd)) :
    updateNode (scrubMap m) k f' = scrubMap (updateNode m k f) := by
  rw [updateNode, updateNode, mapGet_scrubMap]
  cases mapGet m k with
  | none => rfl
  | some nd =>
    simp only [Option.map_some']
    rw [hf]
    exact mapSet_scrubMap m k (f nd)

theorem setDepth_scrubMap (m : CMap) (k : String) (d : Nat) :
    setDepth (scrubMap m) k d = scrubMap (setDepth m k d) :=
  updateNode_scrubMap m k _ _ (fun _ => rfl)

theorem pushReply_scrubMap (m : CMap) (k x : String) :
    pushReply (scrubMap m) k x = scrubMap (pushReply m k x) :=
  updateNode_scrubMap m k _ _ (fun _ => rfl)

theorem sortKey_scrubMap (m : CMap) (k : String) :
    sortKey (scrubMap m) k = sortKey m k := by
  rw [sortKey, sortKey, mapGet_scrubMap]
  cases mapGet m k <;> rfl

theorem insertDesc_congr {m1 m2 : CMap}
    (h : ∀ x, sortKey m1 x = sortKey m2 x) (x : String) (ys : List String) :
    insertDesc m1 x ys = insertDesc m2 x ys := by
  induction ys with
  | nil => rfl
  | cons y ys ih => rw [insertDesc, insertDesc, h, h, ih]

theorem sortDesc_congr {m1 m2 : CMap}
    (h : ∀ x, sortKey m1 x = sortKey m2 x) (l : List String) :
    sortDesc m1 l = sortDesc m2 l := by
  induction l with
  | nil => rfl
  | cons a l ih =>
    simp only [sortDesc, List.foldr_cons] at ih ⊢
    rw [ih, insertDesc_congr h]

theorem sortNodeReplies_scrubMap (m : CMap) (k : String) :
    sortNodeReplies (scrubMap m) k = scrubMap (sortNodeReplies m k) := by
  refine updateNode_scrubMap m k _ _ ?_
  intro nd
  simp only [scrubNode, scrubNode_replies]
  rw [sortDesc_congr (sortKey_scrubMap m)]

theorem childrenOf_scrubMap (m : CMap) (k : String) :
    childrenOf (scrubMap m) k = childrenOf m k := by
  rw [childrenOf, childrenOf, mapGet_scrubMap]
  cases mapGet m k <;> rfl

theorem foldl_sorts_scrubMap (cs : List String) :
    ∀ m : CMap, cs.foldl (fun a c => sortNodeReplies a c) (scrubMap m) =
      scrubMap (cs.foldl (fun a c => sortNodeReplies a c) m) := by
  induction cs with
  | nil => intro m; rfl
  | cons c cs ih =>
    intro m
    simp only [List.foldl_cons]
    rw [sortNodeReplies_scrubMap, ih]

theorem sortRootStep_scrubMap (m : CMap) (r : String) :
    sortRootStep (scrubMap m) r = scrubMap (sortRootStep m r) := by
  show (childrenOf (sortNodeReplies (scrubMap m) r) r).foldl
      (fun a c => sortNodeReplies a c) (sortNodeReplies (scrubMap m) r) =
    scrubMap ((childrenOf (sortNodeReplies m r) r).foldl
      (fun a c => sortNodeReplies a c) (sortNodeReplies m r))
  rw [sortNodeReplies_scrubMap, childrenOf_scrubMap, foldl_sorts_scrubMap]

theorem foldl_sortRootStep_scrubMap (rs : List String) :
    ∀ m : CMap, rs.foldl sortRootStep (scrubMap m) =
      scrubMap (rs.foldl sortRootStep m) := by
  induction rs with
  | nil => intro m; rfl
  | cons r rs ih =>
    intro m
    simp only [List.foldl_cons]
    rw [sortRootStep_scrubMap, ih]

theorem sortPhase_scrubMap (m : CMap) (roots : List String) :
    sortPhase (scrubMap m) roots =
      ((sortPhase m roots).1, scrubMap (sortPhase m roots).2) := by
  show (sortDesc (scrubMap m) roots,
      (sortDesc (scrubMap m) roots).foldl sortRootStep (scrubMap m)) =
    (sortDesc m roots, scrubMap ((sortDesc m roots).foldl sortRootStep m))
  rw [sortDesc_congr (sortKey_scrubMap m), foldl_sortRootStep_scrubMap]

theorem step_scrub (m : CMap) (roots : List String) (c : Comment) :
    step (scrubMap m, roots) (scrubComment c) =
      Option.map (fun st1 => (scrubMap st1.1, st1.2)) (step (m, roots) c) := by
  cases hg : mapGet m c.id with
  | none =>
    have hg2 : mapGet (scrubMap m) c.id = none := by
      rw [mapGet_scrubMap, hg]
      rfl
    simp [step, scrubComment_id, scrubComment_parent, hg, hg2]
  | some nd =>
    have hg2 : mapGet (scrubMap m) c.id = some (scrubNode nd) := by
      rw [mapGet_scrubMap, hg]
      rfl
    by_cases ht : isTruthy c.parent_id = true
    · cases hp : mapGet m (c.parent_id.getD "") with
      | none =>
        have hp2 : mapGet (scrubMap m) (c.parent_id.getD "") = none := by
          rw [mapGet_scrubMap, hp]
          rfl
        simp [step, scrubComment_id, scrubComment_parent, hg, hg2, ht, hp, hp2]
      | some parent =>
        have hp2 : mapGet (scrubMap m) (c.parent_id.getD "") =
            some (scrubNode parent) := by
          rw [mapGet_scrubMap, hp]
          rfl
        by_cases hd : parent.depth ≥ 1 ∧ isTruthy parent.comment.parent_id = true
        · cases hgp : mapGet (setDepth m c.id (min (parent.depth + 1) 2))
              (parent.comment.parent_id.getD "") with
          | none =>
            have hgp2 : mapGet (setDepth (scrubMap m) c.id
                (min (parent.depth + 1) 2))
                (parent.comment.parent_id.getD "") = none := by
              rw [setDepth_scrubMap, mapGet_scrubMap, hgp]
              rfl
            simp only [step, scrubComment_id, scrubComment_parent, hg, hg2,
              ht, hp, hp2, hd, scrubNode, scrubComment, setDepth_scrubMap,
              pushReply_scrubMap, if_true, and_true, true_and, ge_iff_le,
              if_pos]
            have hmin : (parent.depth + 1) ⊓ 2 = 2 :=
              Nat.min_eq_right (by have := hd.1; omega)
            rw [hmin] at hgp
            simp [mapGet_scrubMap, hgp, hmin]
          | some gp =>
            have hgp2 : mapGet (setDepth (scrubMap m) c.id
                (min (parent.depth + 1) 2))
                (parent.comment.parent_id.getD "") = some (scrubNode gp) := by
              rw [setDepth_scrubMap, mapGet_scrubMap, hgp]
              rfl
            simp only [step, scrubComment_id, scrubComment_parent, hg, hg2,
              ht, hp, hp2, hd, scrubNode, scrubComment, setDepth_scrubMap,
              pushReply_scrubMap, if_true, and_true, true_and, ge_iff_le,
              if_pos]
            have hmin : (parent.depth + 1) ⊓ 2 = 2 :=
              Nat.min_eq_right (by have := hd.1; omega)
            rw [hmin] at hgp
            simp [mapGet_scrubMap, hgp, hmin]
        · simp [step, scrubComment_id, scrubComment_parent, hg, hg2, ht, hp,
            hp2, hd, scrubNode, scrubComment, setDepth_scrubMap,
            pushReply_scrubMap]
    · have ht2 : isTruthy c.parent_id = false := by
        cases htt : isTruthy c.parent_id
        · rfl
        · exact absurd htt ht
      simp [step, scrubComment_id, scrubComment_parent, hg, hg2, ht2]

theorem pass2_scrub :
    ∀ (cs : List Comment) (m : CMap) (roots : List String),
      pass2 (cs.map scrubComment) (scrubMap m, roots) =
        Option.map (fun st1 => (scrubMap st1.1, st1.2))
          (pass2 cs (m, roots)) := by
  intro cs
  induction cs with
  | nil => intro m roots; rfl
  | cons c cs ih =>
    intro m roots
    simp only [List.map_cons, pass2]
    rw [step_scrub]
    cases hs : step (m, roots) c with
    | none => rfl
    | some st1 =>
      obtain ⟨m1, roots1⟩ := st1
      simp only [Option.map_some']
      exact ih m1 roots1

theorem initMap_scrub (l : List Comment) :
    initMap (l.map scrubComment) = scrubMap (initMap l) := by
  rw [initMap, initMap]
  have key : ∀ (cs : List Comment) (m : CMap),
      (cs.map scrubComment).foldl (fun m c => mapSet m c.id ⟨c, 0, []⟩)
          (scrubMap m) =
        scrubMap (cs.foldl (fun m c => mapSet m c.id ⟨c, 0, []⟩) m) := by
    intro cs
    induction cs with
    | nil => intro m; rfl
    | cons c cs ih =>
      intro m
      simp only [List.map_cons, List.foldl_cons]
      have h1 : mapSet (scrubMap m) (scrubComment c).id
          (⟨scrubComment c, 0, []⟩ : CNode) =
          scrubMap (mapSet m c.id ⟨c, 0, []⟩) :=
        mapSet_scrubMap m c.id ⟨c, 0, []⟩
      rw [h1, ih]
  exact key l []

theorem buildPass2_scrub (l : List Comment) :
    buildPass2 (l.map scrubComment) =
      Option.map (fun st1 => (scrubMap st1.1, st1.2)) (buildPass2 l) := by
  rw [buildPass2, buildPass2, initMap_scrub]
  exact pass2_scrub l (initMap l) []

theorem mat_scrub (m : CMap) : ∀ fuel : Nat,
    (∀ avail k, matOne (scrubMap m) fuel avail k =
      Option.map (fun p => (scrubTree p.1, p.2)) (matOne m fuel avail k)) ∧
    (∀ avail ks, matMany (scrubMap m) fuel avail ks =
      (scrubForest (matMany m fuel avail ks).1,
        (matMany m fuel avail ks).2)) := by
  intro fuel
  induction fuel with
  | zero =>
    constructor
    · intro avail k
      simp [matOne]
    · intro avail ks
      induction ks with
      | nil => simp [matMany, scrubForest]
      | cons k ks ih => simp [matMany, matOne, ih]
  | succ fuel ih =>
    have hone : ∀ avail k, matOne (scrubMap m) (fuel + 1) avail k =
        Option.map (fun p => (scrubTree p.1, p.2))
          (matOne m (fuel + 1) avail k) := by
      intro avail k
      by_cases hkm : k ∈ avail
      · cases hg : mapGet m k with
        | none =>
          have hg2 : mapGet (scrubMap m) k = none := by
            rw [mapGet_scrubMap, hg]
            rfl
          simp [matOne, hkm, hg, hg2]
        | some nd =>
          have hg2 : mapGet (scrubMap m) k = some (scrubNode nd) := by
            rw [mapGet_scrubMap, hg]
            rfl
          simp only [matOne, if_pos hkm, hg, hg2, ih.2, Option.map_some']
          rfl
      · simp [matOne, hkm]
    refine ⟨hone, ?_⟩
    intro avail ks
    induction ks generalizing avail with
    | nil => simp [matMany, scrubForest]
    | cons k ks ihk =>
      rw [matMany, matMany, hone]
      cases h : matOne m (fuel + 1) avail k with
      | none =>
        simp only [Option.map_none']
        exact ihk avail
      | some t_av =>
        obtain ⟨t, av1⟩ := t_av
        simp only [Option.map_some']
        rw [ihk av1]
        rfl

/-- Claim C8: `organizeComments` never reads the soft-deletion flag, so a
record marked `is_deleted` occupies exactly the position it would occupy
if it were not deleted, and soft-deletion never removes a node from the
forest: building from the input with all flags cleared yields the same
forest as clearing the flags of the built forest. -/
theorem claim_C8 (l : List Comment) :
    organizeComments (l.map scrubComment) =
      scrubForest (organizeComments l) := by
  obtain ⟨m, roots, hb, hg⟩ := organizeGraph_eq l
  have hb2 : buildPass2 (l.map scrubComment) = some (scrubMap m, roots) := by
    rw [buildPass2_scrub, hb]
    rfl
  have hg2 : organizeGraph (l.map scrubComment) =
      sortPhase (scrubMap m) roots := by
    simp [organizeGraph, organizeGraphOpt, hb2]
  unfold organizeComments
  rw [hg, hg2, sortPhase_scrubMap]
  have hids : (l.map scrubComment).map (fun c => c.id) =
      l.map (fun c => c.id) := by
    rw [List.map_map]
    rfl
  have hlen : (l.map scrubComment).length = l.length := by
    rw [List.length_map]
  rw [hids, hlen]
  show (matMany (scrubMap (sortPhase m roots).2) (l.length + 1)
      (l.map (fun c => c.id)) (sortPhase m roots).1).1 =
    scrubForest ((matMany (sortPhase m roots).2 (l.length + 1)
      (l.map (fun c => c.id)) (sortPhase m roots).1).1)
  rw [(mat_scrub (sortPhase m roots).2 (l.length + 1)).2]

/-! ### The submit handlers (claim C10) -/

/-- Claim C10: a submission whose trimmed content is empty or whose
content exceeds 1000 characters performs no insert (the handler returns
early with an error toast), and an insert is attempted only when the
content is non-blank after trimming and at most 1000 characters; this
holds for both `handleSubmit` and `handleReplySubmit`. -/
theorem claim_C10 (user : Option String) (postId parentId content : String) :
    ((content.trim = "" ∨ 1000 < content.length) →
      (handleSubmit user postId content).isInserted = false ∧
      (handleReplySubmit user postId parentId content).isInserted = false) ∧
    (∀ row, handleSubmit user postId content = .inserted row →
      content.trim ≠ "" ∧ content.length ≤ 1000) ∧
    (∀ row, handleReplySubmit user postId parentId content = .inserted row →
      content.trim ≠ "" ∧ content.length ≤ 1000) := by
  cases user with
  | none =>
    refine ⟨fun _ => ⟨rfl, rfl⟩, fun row h => ?_, fun row h => ?_⟩ <;>
      exact SubmitOutcome.noConfusion h
  | some uid =>
    by_cases h1 : content.trim = ""
    · have e1 : handleSubmit (some uid) postId content = .emptyError := by
        simp [handleSubmit, h1]
      have e2 : handleReplySubmit (some uid) postId parentId content = .emptyError := by
        simp [handleReplySubmit, h1]
      refine ⟨fun _ => ⟨?_, ?_⟩, fun row h => ?_, fun row h => ?_⟩
      · rw [e1]; rfl
      · rw [e2]; rfl
      · rw [e1] at h; exact SubmitOutcome.noConfusion h
      · rw [e2] at h; exact SubmitOutcome.noConfusion h
    · by_cases h2 : content.length > 1000
      · have e1 : handleSubmit (some uid) postId content = .tooLongError := by
          simp [handleSubmit, h1, h2]
        have e2 : handleReplySubmit (some uid) postId parentId content = .tooLongError := by
          simp [handleReplySubmit, h1, h2]
        refine ⟨fun _ => ⟨?_, ?_⟩, fun row h => ?_, fun row h => ?_⟩
        · rw [e1]; rfl
        · rw [e2]; rfl
        · rw [e1] at h; exact SubmitOutcome.noConfusion h
        · rw [e2] at h; exact SubmitOutcome.noConfusion h
      · refine ⟨fun hbad => ?_, fun row _ => ⟨h1, Nat.le_of_not_lt h2⟩,
          fun row _ => ⟨h1, Nat.le_of_not_lt h2⟩⟩
        rcases hbad with hb | hb
        · exact absurd hb h1
        · exact absurd hb h2

/-- Witness for claim C10 at a concrete over-long submission (1001
characters). -/
theorem claim_C10_witness :
    (handleSubmit (some "u") "p" (String.mk (List.replicate 1001 'a'))).isInserted = false ∧
    (handleReplySubmit (some "u") "p" "q" (String.mk (List.replicate 1001 'a'))).isInserted = false :=
  (claim_C10 (some "u") "p" "q" (String.mk (List.replicate 1001 'a'))).1
    (Or.inr (by
      show 1000 < (List.replicate 1001 'a').length
      rw [List.length_replicate]
      omega))

/-! ### The load-more state update (claim C5) -/

/-- Counterexample to claim C5: with a first page containing only comment
`a` and a second page containing only a reply `b` to `a`, the state held
after `loadMore` (which appends the forest built from the new page alone)
has two roots, while a full rebuild over the concatenated list has one. -/
theorem claim_C5_counterexample :
    (applyFetch
        (applyFetch ⟨[], 0, false⟩ false
          [{ id := "a", created_at := 1 }] 2)
        true [{ id := "b", parent_id := some "a", created_at := 2 }] 2).comments ≠
      organizeComments
        ([{ id := "a", created_at := 1 }] ++
          [{ id := "b", parent_id := some "a", created_at := 2 }]) := by
  intro h
  have hlen := congrArg List.length h
  have h2 : (applyFetch
      (applyFetch ⟨[], 0, false⟩ false
        [{ id := "a", created_at := 1 }] 2)
      true [{ id := "b", parent_id := some "a", created_at := 2 }] 2).comments.length = 2 := by
    simp [applyFetch, organizeComments, organizeGraph, organizeGraphOpt,
      buildPass2, initMap, pass2, step, sortPhase, sortRootStep, childrenOf, sortDesc, insertDesc,
      sortNodeReplies, sortKey, mapSet, mapGet, updateNode, setDepth,
      pushReply, isTruthy, matMany, matOne]
  have h1 : (organizeComments
      ([{ id := "a", created_at := 1 }] ++
        [{ id := "b", parent_id := some "a", created_at := 2 }])).length = 1 := by
    simp [organizeComments, organizeGraph, organizeGraphOpt,
      buildPass2, initMap, pass2, step, sortPhase, sortRootStep, childrenOf, sortDesc, insertDesc,
      sortNodeReplies, sortKey, mapSet, mapGet, updateNode, setDepth,
      pushReply, isTruthy, matMany, matOne]
  rw [h2, h1] at hlen
  cases hlen

/-- Claim C5 amended: on `loadMore` the component does not re-run the
builder over the accumulated record list; it appends the forest built
from the newly fetched page alone to the forest it already holds (and
advances `offset` by the page size, recomputing `hasMore` from the exact
count).  The result can therefore differ from a full rebuild over the
concatenated list, as the counterexample shows. -/
theorem claim_C5_amended (st : CommentsState) (page : List Comment) (count : Nat) :
    (applyFetch st true page count).comments =
        st.comments ++ organizeComments page ∧
    (applyFetch st true page count).offset = st.offset + COMMENTS_PER_PAGE ∧
    ((applyFetch st true page count).hasMore = true ↔
        st.offset + COMMENTS_PER_PAGE < count) := by
  refine ⟨rfl, rfl, ?_⟩
  simp [applyFetch]

/-! ### Concrete chains (claims C1, C2, C3, C4, C6) -/




/-- Counterexample to claim C1: on the spec's own chain 1 ← 2 ← 3
(unique ids, timestamps 1 < 2 < 3) the node of comment 3 carries
`depth = 2` but is attached directly under the root 1 (the builder
reparents it to the grandparent), so its ancestor distance in the output
forest is 1 and `depth ≠ min(distance, 2)`. -/
theorem claim_C1_counterexample :
    depthEqClampedDistance (organizeComments (chain3 1 2 3)) = false := by
  simp [chain3, depthEqClampedDistance, depthMatchesFrom, depthListMatchesFrom,
    organizeComments, organizeGraph, organizeGraphOpt, buildPass2, initMap,
    pass2, step, sortPhase, sortRootStep, childrenOf, sortDesc, insertDesc, sortNodeReplies, sortKey,
    mapSet, mapGet, updateNode, setDepth, pushReply, isTruthy, matMany, matOne]

/-- Counterexample to claim C2: on two records with distinct ids whose
parent references form a cycle, the builder returns an empty forest (both
nodes are pushed into each other's `replies` and never into the root
array), so the recursive node count is 0 while the input has 2 records. -/
theorem claim_C2_counterexample :
    countForest (organizeComments cyclePair) ≠ cyclePair.length := by
  have h1 : countForest (organizeComments cyclePair) = 0 := by
    simp [cyclePair, countForest, organizeComments, organizeGraph,
      organizeGraphOpt, buildPass2, initMap, pass2, step, sortPhase, sortRootStep, childrenOf, sortDesc,
      insertDesc, sortNodeReplies, sortKey, mapSet, mapGet, updateNode,
      setDepth, pushReply, isTruthy, matMany, matOne]
  have h2 : cyclePair.length = 2 := rfl
  rw [h1, h2]
  omega


/-- Counterexample to claim C3: at timestamps 1 < 2 < 3 the builder does
not nest id 3 under id 2; comment 3 is reparented to the grandparent
(id 1), so the claimed shape does not occur. -/
theorem claim_C3_counterexample :
    c3ClaimShape (organizeComments (chain3 1 2 3)) = false := by
  simp [chain3, c3ClaimShape, organizeComments, organizeGraph,
    organizeGraphOpt, buildPass2, initMap, pass2, step, sortPhase, sortRootStep, childrenOf, sortDesc,
    insertDesc, sortNodeReplies, sortKey, mapSet, mapGet, updateNode,
    setDepth, pushReply, isTruthy, matMany, matOne]

/-- Claim C3 amended: on the chain 1 ← 2 ← 3 with t1 < t2 < t3 the
builder produces exactly one root (id 1, depth 0) whose children are
id 3 (depth 2) and id 2 (depth 1), in that order (newest first): comment
3 is attached to the grandparent id 1, not to id 2, because its parent
id 2 already has depth 1. -/
theorem claim_C3_amended (t1 t2 t3 : Nat) (_h12 : t1 < t2) (h23 : t2 < t3) :
    organizeComments (chain3 t1 t2 t3) =
      [CTree.node { id := "1", created_at := t1 } 0
        [CTree.node { id := "3", parent_id := some "2", created_at := t3 } 2 [],
         CTree.node { id := "2", parent_id := some "1", created_at := t2 } 1 []]] := by
  have hn : ¬ (t3 ≤ t2) := not_le.mpr h23
  simp [chain3, organizeComments, organizeGraph, organizeGraphOpt, buildPass2,
    initMap, pass2, step, sortPhase, sortRootStep, childrenOf, sortDesc, insertDesc, sortNodeReplies,
    sortKey, mapSet, mapGet, updateNode, setDepth, pushReply, isTruthy,
    matMany, matOne, hn]

/-- Witness for the amended claim C3 at timestamps 1, 2, 3. -/
theorem claim_C3_amended_witness :
    organizeComments (chain3 1 2 3) =
      [CTree.node { id := "1", created_at := 1 } 0
        [CTree.node { id := "3", parent_id := some "2", created_at := 3 } 2 [],
         CTree.node { id := "2", parent_id := some "1", created_at := 2 } 1 []]] :=
  claim_C3_amended 1 2 3 (by omega) (by omega)

/-- Claim C4: on the chain A ← B ← C ← D (input order A, B, C, D, any
timestamps) the builder assigns depths 0, 1, 2, 2 to A, B, C, D, and D is
attached as a child of B (A's depth-1 descendant), not of C; the order of
the two children of A depends only on their timestamps. -/
theorem claim_C4 (t1 t2 t3 t4 : Nat) :
    organizeComments (chain4 t1 t2 t3 t4) =
      [CTree.node { id := "a", created_at := t1 } 0
        [CTree.node { id := "b", parent_id := some "a", created_at := t2 } 1
          [CTree.node { id := "d", parent_id := some "c", created_at := t4 } 2 []],
         CTree.node { id := "c", parent_id := some "b", created_at := t3 } 2 []]] ∨
    organizeComments (chain4 t1 t2 t3 t4) =
      [CTree.node { id := "a", created_at := t1 } 0
        [CTree.node { id := "c", parent_id := some "b", created_at := t3 } 2 [],
         CTree.node { id := "b", parent_id := some "a", created_at := t2 } 1
          [CTree.node { id := "d", parent_id := some "c", created_at := t4 } 2 []]]] := by
  by_cases h : t3 ≤ t2
  · left
    simp [chain4, organizeComments, organizeGraph, organizeGraphOpt, buildPass2,
      initMap, pass2, step, sortPhase, sortRootStep, childrenOf, sortDesc, insertDesc, sortNodeReplies,
      sortKey, mapSet, mapGet, updateNode, setDepth, pushReply, isTruthy,
      matMany, matOne, h]
  · right
    simp [chain4, organizeComments, organizeGraph, organizeGraphOpt, buildPass2,
      initMap, pass2, step, sortPhase, sortRootStep, childrenOf, sortDesc, insertDesc, sortNodeReplies,
      sortKey, mapSet, mapGet, updateNode, setDepth, pushReply, isTruthy,
      matMany, matOne, h]


/-- Counterexample to claim C6: the first record has no `parentId`, yet it
does not appear as a root with depth 0 — the duplicated id makes the
second pass reuse the single map node for `"x"` (holding the second
record), set its depth to 1 and attach it under `"y"`, so the root entry
with id `"x"` has depth 1 and carries the second record's data. -/
theorem claim_C6_counterexample :
    appearsAsRootDepth0 { id := "x", created_at := 5 }
      (organizeComments dupIds) = false := by
  simp [dupIds, appearsAsRootDepth0, organizeComments, organizeGraph,
    organizeGraphOpt, buildPass2, initMap, pass2, step, sortPhase, sortRootStep, childrenOf, sortDesc,
    insertDesc, sortNodeReplies, sortKey, mapSet, mapGet, updateNode,
    setDepth, pushReply, isTruthy, matMany, matOne, Comment.mk.injEq]

end Blog
